import Mathlib

/-!
Verification development for the DocuDiff repository.

We shallowly embed the diff & reconciliation engine of the repository
(`src/comparator.py`, `src/llm_comparator.py`) in Lean 4.  Text is modelled
as `List Char` (ASCII-faithful: Python's `\s` class is modelled by the six
ASCII whitespace characters, `str.splitlines` by the ASCII line terminators
`\n`, `\r`, `\r\n`, `\v`, `\f`, `\x1c`, `\x1d`, `\x1e`).
-/

/-- Text is modelled as a list of characters. -/
abbrev Str := List Char

/-- ASCII model of Python's `\s` / `str.isspace` for the characters that can
occur in ASCII text: space, tab, newline, carriage return, form feed,
vertical tab. -/
def pySpace (c : Char) : Bool :=
  c = ' ' || c = '\t' || c = '\n' || c = '\r' || c = '\x0b' || c = '\x0c'

/-- Python `str.strip()`: remove leading and trailing whitespace. -/
def pyStrip (s : Str) : Str :=
  ((s.dropWhile pySpace).reverse.dropWhile pySpace).reverse

theorem lengthDropWhileLe (p : α → Bool) (l : List α) :
    (l.dropWhile p).length ≤ l.length := by
  induction l with
  | nil => simp [List.dropWhile]
  | cons a t ih =>
    rw [List.dropWhile]
    cases p a
    · simp
    · simp
      omega

/-- Scanner for Python `str.split()` with no argument; `cur` is the current
word, reversed. -/
def pyWordsGo (cur : Str) : Str → List Str
  | [] => if cur = [] then [] else [cur.reverse]
  | c :: rest =>
    if pySpace c then
      if cur = [] then pyWordsGo [] rest else cur.reverse :: pyWordsGo [] rest
    else pyWordsGo (c :: cur) rest

/-- Python `str.split()` with no argument: split on runs of whitespace,
dropping empty pieces. -/
def pyWords (s : Str) : List Str := pyWordsGo [] s

/-- `sep.join(parts)` from Python. -/
def joinSep (sep : Str) : List Str → Str
  | [] => []
  | [x] => x
  | x :: xs => x ++ sep ++ joinSep sep xs

/-- `(l.drop i).take k`: the Python slice `l[i:i+k]`. -/
def sliceL (l : List α) (i k : Nat) : List α := (l.drop i).take k

/-!
## Token chunker (`GroqPDFComparator._chunk_text_by_tokens`)

The tokenizer (external `tiktoken` `cl100k_base`) is modelled abstractly as a
pair of functions `encode`/`decode`; a token is identified with its decoded
text.  The chunker itself is translated from `src/llm_comparator.py`
lines 66-135.
-/

/-- Abstract interface of the external `tiktoken` tokenizer used by the
chunker: `encode` maps text to a token list, `decode` maps tokens back to
text.  Tokens are modelled by their decoded text. -/
structure Tokenizer where
  encode : Str → List Str
  decode : List Str → Str

/-- Token count of a string: `len(tokenizer.encode(s))`. -/
def Tokenizer.count (tk : Tokenizer) (s : Str) : Nat := (tk.encode s).length

/-- The canonical chunk separator `"\n\n"` of `_chunk_text_by_tokens`. -/
def chunkSep : Str := ['\n', '\n']

/-- The inner word-granularity packing loop of `_chunk_text_by_tokens`
(lines 96-119 of `src/llm_comparator.py`): greedily pack words of an
oversized part into sub-chunks; a single word whose token count exceeds the
budget is truncated to the budget.  State: accumulated chunks, current
sub-chunk and its tracked token estimate. -/
def packWords (tk : Tokenizer) (maxTok : Nat) :
    List Str → List Str → Str → Nat → List Str × Str × Nat
  | [], chunks, sub, subTok => (chunks, sub, subTok)
  | w :: ws, chunks, sub, subTok =>
    let wordPre : Str := if sub ≠ [] then chunkSep else []
    let est := tk.count (wordPre ++ w) - tk.count wordPre
    if subTok + est ≤ maxTok then
      packWords tk maxTok ws chunks
        (sub ++ (if sub ≠ [] then [' '] else []) ++ w) (subTok + est)
    else
      let chunks' := if sub ≠ [] then chunks ++ [sub] else chunks
      let wAlone := tk.count w
      if wAlone ≤ maxTok then
        packWords tk maxTok ws chunks' w wAlone
      else
        packWords tk maxTok ws
          (chunks' ++ [tk.decode ((tk.encode w).take maxTok)]) [] 0

/-- The main greedy-packing loop of `_chunk_text_by_tokens` (lines 84-133):
accumulate parts into chunks joined by `chunkSep`, tracking a running token
count with separator overhead; oversized parts are handed to `packWords`.
State: accumulated chunks, parts of the current chunk, tracked count. -/
def packParts (tk : Tokenizer) (maxTok : Nat) :
    List Str → List Str → List Str → Nat → List Str
  | [], chunks, cur, _ =>
    if cur ≠ [] then chunks ++ [joinSep chunkSep cur] else chunks
  | p0 :: ps, chunks, cur, cnt =>
    let p := pyStrip p0
    if p = [] then packParts tk maxTok ps chunks cur cnt
    else
      let pTok := tk.count p
      if maxTok < pTok then
        let chunks1 := if cur ≠ [] then chunks ++ [joinSep chunkSep cur] else chunks
        let r := packWords tk maxTok (pyWords p) chunks1 [] 0
        let chunks2 := if r.2.1 ≠ [] then r.1 ++ [r.2.1] else r.1
        packParts tk maxTok ps chunks2 [] 0
      else
        let pot := cnt + (if cur ≠ [] then tk.count chunkSep else 0) + pTok
        if pot ≤ maxTok then packParts tk maxTok ps chunks (cur ++ [p]) pot
        else
          packParts tk maxTok ps
            (if cur ≠ [] then chunks ++ [joinSep chunkSep cur] else chunks) [p] pTok

/-- Scanner for `re.split(r'\n\s*\n', s)` (paragraph boundaries, line 70 of
`src/llm_comparator.py`).  A match is a `'\n'` whose following whitespace run
contains another `'\n'`; the regex greedily consumes through the last `'\n'`
of that run.  `skipping = true` while inside such a match; `acc` holds the
current piece reversed. -/
def paraSplitGo (skipping : Bool) (acc : Str) : Str → List Str
  | [] => [acc.reverse]
  | c :: rest =>
    if skipping && ((c :: rest).takeWhile pySpace).contains '\n' then
      paraSplitGo true acc rest
    else if c = '\n' && (rest.takeWhile pySpace).contains '\n' then
      acc.reverse :: paraSplitGo true [] rest
    else paraSplitGo false (c :: acc) rest

/-- `re.split(r'\n\s*\n', s)`. -/
def paraSplit (s : Str) : List Str := paraSplitGo false [] s

/-- Scanner for `re.split(r'(?<=[.!?])\s+', s)` (sentence boundaries,
line 72): split at a whitespace run preceded by `.`, `!` or `?`, consuming
the whole run (`skipping = true` inside it); the previous character is the
head of the reversed accumulator. -/
def senSplitGo (skipping : Bool) (acc : Str) : Str → List Str
  | [] => [acc.reverse]
  | c :: rest =>
    if skipping && pySpace c then senSplitGo true acc rest
    else if pySpace c &&
        (acc.head? = some '.' || acc.head? = some '!' || acc.head? = some '?') then
      acc.reverse :: senSplitGo true [] rest
    else senSplitGo false (c :: acc) rest

/-- `re.split(r'(?<=[.!?])\s+', s)`. -/
def senSplit (s : Str) : List Str := senSplitGo false [] s

/-- Python `s.split('\n')`: split at every newline, keeping empty pieces. -/
def nlSplitPyGo (acc : Str) : Str → List Str
  | [] => [acc.reverse]
  | c :: rest =>
    if c = '\n' then acc.reverse :: nlSplitPyGo [] rest
    else nlSplitPyGo (c :: acc) rest

/-- Python `s.split('\n')`. -/
def nlSplitPy (s : Str) : List Str := nlSplitPyGo [] s

/-- `GroqPDFComparator._chunk_text_by_tokens` (lines 66-135): the splitting
cascade (paragraphs, then sentences, then single newlines, then words)
followed by greedy packing, with empty / whitespace-only chunks dropped.
The `tokenizer is None` guard is not modelled: the constructor (line 41)
raises unless the tokenizer initialised. -/
def chunkTextByTokens (tk : Tokenizer) (maxTok : Nat) (text : Str) : List Str :=
  if text = [] then [] else
  let st := pyStrip text
  let p1 := paraSplit st
  let parts :=
    if p1.length ≤ 1 then
      let p2 := senSplit st
      if p2.length ≤ 1 then
        let p3 := nlSplitPy st
        if p3.length ≤ 1 then pyWords st else p3
      else p2
    else p1
  (packParts tk maxTok parts [] [] 0).filter (fun c => pyStrip c ≠ [])

/-- `max(max_chunk_tokens, 500)`: the budget floor enforced by
`GroqPDFComparator.__init__` (line 48). -/
def effectiveChunkBudget (requested : Nat) : Nat := max requested 500

theorem joinSep_single (sep x : Str) : joinSep sep [x] = x := rfl

theorem joinSep_cons_cons (sep x y : Str) (u : List Str) :
    joinSep sep (x :: y :: u) = x ++ sep ++ joinSep sep (y :: u) := rfl

theorem joinSep_snoc (sep p : Str) : ∀ (cur : List Str), cur ≠ [] →
    joinSep sep (cur ++ [p]) = joinSep sep cur ++ sep ++ p := by
  intro cur
  induction cur with
  | nil => intro h; exact absurd rfl h
  | cons x t ih =>
    intro _
    cases t with
    | nil => simp [joinSep_single, joinSep_cons_cons]
    | cons y u =>
      have ih' := ih (by simp)
      simp only [List.cons_append] at ih' ⊢
      rw [joinSep_cons_cons, ih', joinSep_cons_cons]
      simp [List.append_assoc]

theorem packWords_bound (tk : Tokenizer) (maxTok : Nat)
    (hEmpty : tk.count [] = 0)
    (hSpace : ∀ a w, tk.count (a ++ ' ' :: w) ≤
      tk.count a + (tk.count (chunkSep ++ w) - tk.count chunkSep))
    (hTrunc : ∀ w n, tk.count (tk.decode ((tk.encode w).take n)) ≤ n) :
    ∀ ws chunks sub subTok,
      (∀ c ∈ chunks, tk.count c ≤ maxTok) →
      (sub ≠ [] → tk.count sub ≤ subTok ∧ subTok ≤ maxTok) →
      (sub = [] → subTok = 0) →
      (∀ c ∈ (packWords tk maxTok ws chunks sub subTok).1, tk.count c ≤ maxTok) ∧
      ((packWords tk maxTok ws chunks sub subTok).2.1 ≠ [] →
        tk.count (packWords tk maxTok ws chunks sub subTok).2.1 ≤
          (packWords tk maxTok ws chunks sub subTok).2.2 ∧
        (packWords tk maxTok ws chunks sub subTok).2.2 ≤ maxTok) := by
  intro ws
  induction ws with
  | nil =>
    intro chunks sub subTok hc hs _
    exact ⟨hc, hs⟩
  | cons w ws ih =>
    intro chunks sub subTok hc hs hz
    rw [packWords]
    by_cases hsub : sub = []
    · subst hsub
      simp only [ne_eq, not_true_eq_false, if_false, ite_false, List.nil_append,
        reduceIte, hEmpty, Nat.sub_zero]
      have hz0 : subTok = 0 := hz rfl
      subst hz0
      by_cases hle : 0 + tk.count w ≤ maxTok
      · rw [if_pos hle]
        apply ih
        · exact hc
        · intro hw
          constructor
          · omega
          · omega
        · intro hw
          rw [hw, hEmpty]
      · rw [if_neg hle]
        have hgt : ¬ tk.count w ≤ maxTok := by omega
        rw [if_neg hgt]
        apply ih
        · intro c hcmem
          rcases List.mem_append.mp hcmem with h | h
          · exact hc c h
          · rw [List.mem_singleton.mp h]
            exact hTrunc w maxTok
        · intro h
          exact absurd rfl h
        · intro _; rfl
    · simp only [ne_eq, hsub, not_false_eq_true, if_pos, ite_true]
      obtain ⟨hs1, hs2⟩ := hs hsub
      by_cases hle : subTok + (tk.count (chunkSep ++ w) - tk.count chunkSep) ≤ maxTok
      · rw [if_pos hle]
        apply ih
        · exact hc
        · intro _
          constructor
          · calc tk.count (sub ++ [' '] ++ w) = tk.count (sub ++ ' ' :: w) := by
                  rw [List.append_assoc]; rfl
              _ ≤ tk.count sub + (tk.count (chunkSep ++ w) - tk.count chunkSep) :=
                  hSpace sub w
              _ ≤ subTok + (tk.count (chunkSep ++ w) - tk.count chunkSep) := by omega
          · exact hle
        · intro h
          exact absurd h (by simp [hsub])
      · rw [if_neg hle]
        have hc' : ∀ c ∈ chunks ++ [sub], tk.count c ≤ maxTok := by
          intro c hcmem
          rcases List.mem_append.mp hcmem with h | h
          · exact hc c h
          · rw [List.mem_singleton.mp h]; omega
        by_cases hwa : tk.count w ≤ maxTok
        · rw [if_pos hwa]
          apply ih
          · exact hc'
          · intro _
            exact ⟨Nat.le_refl _, hwa⟩
          · intro hw
            rw [hw, hEmpty]
        · rw [if_neg hwa]
          apply ih
          · intro c hcmem
            rcases List.mem_append.mp hcmem with h | h
            · exact hc' c h
            · rw [List.mem_singleton.mp h]
              exact hTrunc w maxTok
          · intro h
            exact absurd rfl h
          · intro _; rfl

theorem packParts_bound (tk : Tokenizer) (maxTok : Nat)
    (hEmpty : tk.count [] = 0)
    (hSub : ∀ a b, tk.count (a ++ b) ≤ tk.count a + tk.count b)
    (hSpace : ∀ a w, tk.count (a ++ ' ' :: w) ≤
      tk.count a + (tk.count (chunkSep ++ w) - tk.count chunkSep))
    (hTrunc : ∀ w n, tk.count (tk.decode ((tk.encode w).take n)) ≤ n) :
    ∀ parts chunks cur cnt,
      (∀ c ∈ chunks, tk.count c ≤ maxTok) →
      (cur ≠ [] → tk.count (joinSep chunkSep cur) ≤ cnt ∧ cnt ≤ maxTok) →
      (cur = [] → cnt = 0) →
      ∀ c ∈ packParts tk maxTok parts chunks cur cnt, tk.count c ≤ maxTok := by
  intro parts
  induction parts with
  | nil =>
    intro chunks cur cnt hc hcur _ c hmem
    rw [packParts] at hmem
    by_cases h : cur = []
    · simp only [h, ne_eq, not_true_eq_false, if_false, ite_false] at hmem
      exact hc c hmem
    · simp only [ne_eq, h, not_false_eq_true, if_pos, ite_true] at hmem
      rcases List.mem_append.mp hmem with hm | hm
      · exact hc c hm
      · rw [List.mem_singleton.mp hm]
        exact le_trans (hcur h).1 (hcur h).2
  | cons p0 ps ih =>
    intro chunks cur cnt hc hcur hz c hmem
    rw [packParts] at hmem
    by_cases hp : pyStrip p0 = []
    · rw [if_pos hp] at hmem
      exact ih chunks cur cnt hc hcur hz c hmem
    · rw [if_neg hp] at hmem
      set p := pyStrip p0 with hpdef
      have hflush : ∀ d ∈ (if cur ≠ [] then chunks ++ [joinSep chunkSep cur] else chunks),
          tk.count d ≤ maxTok := by
        intro d hd
        by_cases h : cur = []
        · simp only [h, ne_eq, not_true_eq_false, if_false, ite_false] at hd
          exact hc d hd
        · simp only [ne_eq, h, not_false_eq_true, if_pos, ite_true] at hd
          rcases List.mem_append.mp hd with hm | hm
          · exact hc d hm
          · rw [List.mem_singleton.mp hm]
            exact le_trans (hcur h).1 (hcur h).2
      by_cases hbig : maxTok < tk.count p
      · rw [if_pos hbig] at hmem
        have hpw := packWords_bound tk maxTok hEmpty hSpace hTrunc
          (pyWords p) (if cur ≠ [] then chunks ++ [joinSep chunkSep cur] else chunks) [] 0
          hflush (fun h => absurd rfl h) (fun _ => rfl)
        apply ih _ [] 0 _ (fun h => absurd rfl h) (fun _ => rfl) c hmem
        intro d hd
        by_cases hsub : (packWords tk maxTok (pyWords p)
            (if cur ≠ [] then chunks ++ [joinSep chunkSep cur] else chunks) [] 0).2.1 = []
        · simp only [hsub, ne_eq, not_true_eq_false, if_false, ite_false] at hd
          exact hpw.1 d hd
        · simp only [ne_eq, hsub, not_false_eq_true, if_pos, ite_true] at hd
          rcases List.mem_append.mp hd with hm | hm
          · exact hpw.1 d hm
          · rw [List.mem_singleton.mp hm]
            exact le_trans (hpw.2 hsub).1 (hpw.2 hsub).2
      · rw [if_neg hbig] at hmem
        by_cases hfit : cnt + (if cur ≠ [] then tk.count chunkSep else 0) + tk.count p ≤ maxTok
        · rw [if_pos hfit] at hmem
          apply ih chunks (cur ++ [p]) _ hc _ (by simp) c hmem
          intro _
          refine ⟨?_, hfit⟩
          by_cases h : cur = []
          · subst h
            have hcnt := hz rfl
            have hjp : joinSep chunkSep ([] ++ [p]) = p := rfl
            rw [hjp, hcnt]
            simp
          · rw [joinSep_snoc _ _ _ h]
            calc tk.count (joinSep chunkSep cur ++ chunkSep ++ p)
                ≤ tk.count (joinSep chunkSep cur ++ chunkSep) + tk.count p :=
                  hSub _ _
              _ ≤ tk.count (joinSep chunkSep cur) + tk.count chunkSep + tk.count p := by
                  have := hSub (joinSep chunkSep cur) chunkSep
                  omega
              _ ≤ cnt + (if cur ≠ [] then tk.count chunkSep else 0) + tk.count p := by
                  have := (hcur h).1
                  simp only [ne_eq, h, not_false_eq_true, if_pos, ite_true]
                  omega
        · rw [if_neg hfit] at hmem
          apply ih _ [p] (tk.count p) hflush _ (by simp) c hmem
          intro _
          have : joinSep chunkSep [p] = p := rfl
          rw [this]
          omega

/-- C1: for every input string and requested budget, the token chunker uses
the effective budget `max(max_tokens, 500)` and every returned chunk has a
token count at most that budget (the truncated-oversized-word edge case
included, since truncation is to the budget).  The theorem is proved for
every tokenizer satisfying the interface properties the code relies on:
an empty string encodes to no tokens, token counts are subadditive over
concatenation, appending a word after a single space costs at most the
separator-relative estimate the code computes, and decoding a clipped token
list re-encodes to at most that many tokens. -/
theorem chunkTextByTokens_budget (tk : Tokenizer) (requested : Nat) (text : Str)
    (hEmpty : tk.count [] = 0)
    (hSub : ∀ a b, tk.count (a ++ b) ≤ tk.count a + tk.count b)
    (hSpace : ∀ a w, tk.count (a ++ ' ' :: w) ≤
      tk.count a + (tk.count (chunkSep ++ w) - tk.count chunkSep))
    (hTrunc : ∀ w n, tk.count (tk.decode ((tk.encode w).take n)) ≤ n) :
    ∀ c ∈ chunkTextByTokens tk (effectiveChunkBudget requested) text,
      tk.count c ≤ effectiveChunkBudget requested := by
  intro c hc
  rw [chunkTextByTokens] at hc
  by_cases ht : text = []
  · rw [if_pos ht] at hc
    exact absurd hc (List.not_mem_nil c)
  · rw [if_neg ht] at hc
    have hmem := List.mem_of_mem_filter hc
    exact packParts_bound tk (effectiveChunkBudget requested) hEmpty hSub hSpace hTrunc
      _ [] [] 0 (by intro d hd; exact absurd hd (List.not_mem_nil d))
      (fun h => absurd rfl h) (fun _ => rfl) c hmem

/-- A concrete tokenizer satisfying the interface hypotheses of
`chunkTextByTokens_budget`: every `'x'` is one token, all other characters
are free; decoding concatenates the tokens. -/
def xTok : Tokenizer :=
  ⟨fun s => (s.filter (fun c => c = 'x')).map (fun c => [c]), fun ts => joinSep [] ts⟩

theorem xTok_count (s : Str) : xTok.count s = (s.filter (fun c => c = 'x')).length := by
  simp [xTok, Tokenizer.count]

theorem xTok_count_nil : xTok.count [] = 0 := rfl

theorem xTok_count_append (a b : Str) : xTok.count (a ++ b) = xTok.count a + xTok.count b := by
  simp [xTok_count, List.filter_append]

theorem xTok_sub : ∀ a b, xTok.count (a ++ b) ≤ xTok.count a + xTok.count b := by
  intro a b
  rw [xTok_count_append]

theorem xTok_space : ∀ a w, xTok.count (a ++ ' ' :: w) ≤
    xTok.count a + (xTok.count (chunkSep ++ w) - xTok.count chunkSep) := by
  intro a w
  have hsep : xTok.count chunkSep = 0 := rfl
  have h1 : xTok.count (' ' :: w) = xTok.count w := by
    rw [xTok_count, xTok_count, List.filter_cons_of_neg]
    decide
  have h2 : xTok.count (chunkSep ++ w) = xTok.count chunkSep + xTok.count w :=
    xTok_count_append _ _
  rw [xTok_count_append, h1, h2, hsep]
  omega

theorem joinSepNil_map_singleton : ∀ l : Str, joinSep [] (l.map (fun c => [c])) = l := by
  intro l
  induction l with
  | nil => rfl
  | cons c t ih =>
    cases t with
    | nil => rfl
    | cons d u =>
      simp only [List.map_cons] at ih ⊢
      rw [joinSep_cons_cons, ih]
      rfl

theorem xTok_trunc : ∀ w n, xTok.count (xTok.decode ((xTok.encode w).take n)) ≤ n := by
  intro w n
  have henc : (xTok.encode w).take n =
      ((w.filter (fun c => c = 'x')).take n).map (fun c => [c]) := by
    simp [xTok, List.map_take]
  rw [henc]
  have hdec : xTok.decode (((w.filter (fun c => c = 'x')).take n).map (fun c => [c])) =
      (w.filter (fun c => c = 'x')).take n := joinSepNil_map_singleton _
  rw [hdec, xTok_count]
  calc (((w.filter (fun c => c = 'x')).take n).filter (fun c => c = 'x')).length
      ≤ ((w.filter (fun c => c = 'x')).take n).length := List.length_filter_le _ _
    _ ≤ n := List.length_take_le n _

/-- Witness for `chunkTextByTokens_budget`: the concrete tokenizer `xTok`
satisfies all four interface hypotheses, and on the input `"xx xx"` with
requested budget `0` (floored to `500`) the chunker returns the single chunk
`"xx\n\nxx"`, whose token count is within the effective budget. -/
theorem chunkTextByTokens_budget_witness :
    xTok.count ('x' :: 'x' :: '\n' :: '\n' :: 'x' :: 'x' :: []) ≤ effectiveChunkBudget 0 :=
  chunkTextByTokens_budget xTok 0 ('x' :: 'x' :: ' ' :: 'x' :: 'x' :: [])
    xTok_count_nil xTok_sub xTok_space xTok_trunc
    ('x' :: 'x' :: '\n' :: '\n' :: 'x' :: 'x' :: []) (by decide)

/-!
## `difflib.SequenceMatcher` (autojunk disabled, no junk predicate)

Both comparators align sequences with
`difflib.SequenceMatcher(None, xs, ys, autojunk=False)`.  With no junk, the
junk-extension phases of `find_longest_match` are no-ops and the dictionary
scan returns the longest matching block, ties broken by the smallest start
in the first sequence and then in the second; we implement that extensional
behaviour directly as a fold over candidate start pairs in the same
row-major order the scan visits them, updating only on strictly longer
matches.
-/

/-- Length of the longest common prefix of two lists. -/
def cpl [DecidableEq α] : List α → List α → Nat
  | a :: as, b :: bs => if a = b then cpl as bs + 1 else 0
  | _, _ => 0

/-- `[lo, hi)` as a list. -/
def rangeL (lo hi : Nat) : List Nat := (List.range (hi - lo)).map (lo + ·)

/-- The match length starting at `(i, j)` inside the window
`a[alo:ahi] × b[blo:bhi]` (the window clips the common run). -/
def matchLenAt [DecidableEq α] (a b : List α) (ahi bhi i j : Nat) : Nat :=
  cpl (sliceL a i (ahi - i)) (sliceL b j (bhi - j))

/-- `SequenceMatcher.find_longest_match(alo, ahi, blo, bhi)` with no junk:
the longest matching block `(i, j, k)`; ties resolved in favour of the
candidate reached first by the ascending `(i, j)` scan, i.e. smallest `i`,
then smallest `j`.  Returns `(alo, blo, 0)` when nothing matches. -/
def findLongestMatch [DecidableEq α] (a b : List α) (alo ahi blo bhi : Nat) :
    Nat × Nat × Nat :=
  ((rangeL alo ahi).flatMap (fun i => (rangeL blo bhi).map (fun j => (i, j)))).foldl
    (fun best ij =>
      let k := matchLenAt a b ahi bhi ij.1 ij.2
      if best.2.2 < k then (ij.1, ij.2, k) else best)
    (alo, blo, 0)

/-- The recursive divide step of `SequenceMatcher.get_matching_blocks`:
find the longest match of the window, recurse on the left and right
remainders.  `fuel` dominates the recursion depth; it is always called with
enough fuel for the window (each recursion strictly shrinks
`(ahi - alo) + (bhi - blo)`). -/
def matchingBlocksAux [DecidableEq α] (a b : List α) :
    Nat → Nat → Nat → Nat → Nat → List (Nat × Nat × Nat)
  | 0, _, _, _, _ => []
  | fuel + 1, alo, ahi, blo, bhi =>
    let m := findLongestMatch a b alo ahi blo bhi
    if m.2.2 = 0 then []
    else
      matchingBlocksAux a b fuel alo m.1 blo m.2.1 ++
        m :: matchingBlocksAux a b fuel (m.1 + m.2.2) ahi (m.2.1 + m.2.2) bhi

/-- The adjacent-block merge at the end of `get_matching_blocks`
(`non_adjacent` loop): second-pass state is the pending block
`(i1, j1, k1)`. -/
def mergeAdjGo : Nat → Nat → Nat → List (Nat × Nat × Nat) → List (Nat × Nat × Nat)
  | i1, j1, k1, [] => if k1 ≠ 0 then [(i1, j1, k1)] else []
  | i1, j1, k1, (i2, j2, k2) :: rest =>
    if i1 + k1 = i2 && j1 + k1 = j2 then mergeAdjGo i1 j1 (k1 + k2) rest
    else (if k1 ≠ 0 then [(i1, j1, k1)] else []) ++ mergeAdjGo i2 j2 k2 rest

/-- `SequenceMatcher.get_matching_blocks()`: recursive longest-match
decomposition, adjacent blocks merged, terminated by the sentinel block
`(len(a), len(b), 0)`. -/
def getMatchingBlocks [DecidableEq α] (a b : List α) : List (Nat × Nat × Nat) :=
  mergeAdjGo 0 0 0
    (matchingBlocksAux a b (a.length + b.length + 1) 0 a.length 0 b.length) ++
    [(a.length, b.length, 0)]

/-- Opcode tags of `SequenceMatcher.get_opcodes()`. -/
inductive Tag where
  | equal | insert | delete | replace
deriving DecidableEq, Repr

/-- An opcode `(tag, i1, i2, j1, j2)`. -/
structure Opcode where
  tag : Tag
  i1 : Nat
  i2 : Nat
  j1 : Nat
  j2 : Nat
deriving DecidableEq, Repr

/-- The cursor walk of `get_opcodes()`: before each matching block emit the
gap opcode (`replace`, `delete` or `insert`), then an `equal` opcode for the
block itself when its size is nonzero. -/
def opcodesGo : Nat → Nat → List (Nat × Nat × Nat) → List Opcode
  | _, _, [] => []
  | i, j, (ai, bj, k) :: rest =>
    (if i < ai && j < bj then [⟨.replace, i, ai, j, bj⟩]
     else if i < ai then [⟨.delete, i, ai, j, bj⟩]
     else if j < bj then [⟨.insert, i, ai, j, bj⟩]
     else []) ++
    (if k ≠ 0 then [⟨.equal, ai, ai + k, bj, bj + k⟩] else []) ++
    opcodesGo (ai + k) (bj + k) rest

/-- `SequenceMatcher.get_opcodes()` for `SequenceMatcher(None, a, b,
autojunk=False)`. -/
def getOpcodes [DecidableEq α] (a b : List α) : List Opcode :=
  opcodesGo 0 0 (getMatchingBlocks a b)

theorem cpl_le_left [DecidableEq α] : ∀ (xs ys : List α), cpl xs ys ≤ xs.length := by
  intro xs
  induction xs with
  | nil => intro ys; cases ys <;> simp [cpl]
  | cons x t ih =>
    intro ys
    cases ys with
    | nil => simp [cpl]
    | cons y u =>
      rw [cpl]
      by_cases h : x = y
      · rw [if_pos h]
        have := ih u
        simp
        omega
      · rw [if_neg h]
        simp

theorem cpl_le_right [DecidableEq α] : ∀ (xs ys : List α), cpl xs ys ≤ ys.length := by
  intro xs
  induction xs with
  | nil => intro ys; cases ys <;> simp [cpl]
  | cons x t ih =>
    intro ys
    cases ys with
    | nil => simp [cpl]
    | cons y u =>
      rw [cpl]
      by_cases h : x = y
      · rw [if_pos h]
        have := ih u
        simp
        omega
      · rw [if_neg h]
        simp

theorem cpl_take [DecidableEq α] : ∀ (xs ys : List α),
    xs.take (cpl xs ys) = ys.take (cpl xs ys) := by
  intro xs
  induction xs with
  | nil => intro ys; cases ys <;> simp [cpl]
  | cons x t ih =>
    intro ys
    cases ys with
    | nil => simp [cpl]
    | cons y u =>
      rw [cpl]
      by_cases h : x = y
      · rw [if_pos h]
        simp [h, ih u]
      · rw [if_neg h]
        simp

theorem foldlPreserve (P : β → Prop) (f : β → γ → β) :
    ∀ (l : List γ) (init : β), P init → (∀ acc x, P acc → x ∈ l → P (f acc x)) →
      P (l.foldl f init) := by
  intro l
  induction l with
  | nil => intro init h _; exact h
  | cons x t ih =>
    intro init h hstep
    exact ih (f init x) (hstep init x h (List.mem_cons_self x t))
      (fun acc y hy hmem => hstep acc y hy (List.mem_cons_of_mem x hmem))

/-- The window invariant established by `findLongestMatch`: the returned
block lies inside the window and its two segments are equal. -/
theorem findLongestMatch_spec [DecidableEq α] (a b : List α) (alo ahi blo bhi : Nat)
    (ha : alo ≤ ahi) (hb : blo ≤ bhi) :
    alo ≤ (findLongestMatch a b alo ahi blo bhi).1 ∧
    blo ≤ (findLongestMatch a b alo ahi blo bhi).2.1 ∧
    (findLongestMatch a b alo ahi blo bhi).1 +
      (findLongestMatch a b alo ahi blo bhi).2.2 ≤ ahi ∧
    (findLongestMatch a b alo ahi blo bhi).2.1 +
      (findLongestMatch a b alo ahi blo bhi).2.2 ≤ bhi ∧
    sliceL a (findLongestMatch a b alo ahi blo bhi).1
        (findLongestMatch a b alo ahi blo bhi).2.2 =
      sliceL b (findLongestMatch a b alo ahi blo bhi).2.1
        (findLongestMatch a b alo ahi blo bhi).2.2 := by
  rw [findLongestMatch]
  refine foldlPreserve
    (fun (m : Nat × Nat × Nat) =>
      alo ≤ m.1 ∧ blo ≤ m.2.1 ∧ m.1 + m.2.2 ≤ ahi ∧ m.2.1 + m.2.2 ≤ bhi ∧
      sliceL a m.1 m.2.2 = sliceL b m.2.1 m.2.2) _ _ _ ?_ ?_
  · exact ⟨Nat.le_refl _, Nat.le_refl _, by simpa using ha, by simpa using hb,
      by simp [sliceL]⟩
  · intro acc ij hacc hmem
    by_cases h : acc.2.2 < matchLenAt a b ahi bhi ij.1 ij.2
    · simp only [if_pos h]
      have hij : ij.1 ∈ rangeL alo ahi ∧ ij.2 ∈ rangeL blo bhi := by
        rcases List.mem_flatMap.mp hmem with ⟨i, hi, hmap⟩
        rcases List.mem_map.mp hmap with ⟨j, hj, hje⟩
        rw [← hje]
        exact ⟨hi, hj⟩
      have hi1 : alo ≤ ij.1 ∧ ij.1 < ahi := by
        rcases List.mem_map.mp hij.1 with ⟨n, hn, he⟩
        have := List.mem_range.mp hn
        omega
      have hj1 : blo ≤ ij.2 ∧ ij.2 < bhi := by
        rcases List.mem_map.mp hij.2 with ⟨n, hn, he⟩
        have := List.mem_range.mp hn
        omega
      set k := matchLenAt a b ahi bhi ij.1 ij.2 with hk
      have hkla : k ≤ ahi - ij.1 := by
        rw [hk, matchLenAt]
        calc cpl (sliceL a ij.1 (ahi - ij.1)) (sliceL b ij.2 (bhi - ij.2))
            ≤ (sliceL a ij.1 (ahi - ij.1)).length := cpl_le_left _ _
          _ ≤ ahi - ij.1 := by simp [sliceL]
      have hklb : k ≤ bhi - ij.2 := by
        rw [hk, matchLenAt]
        calc cpl (sliceL a ij.1 (ahi - ij.1)) (sliceL b ij.2 (bhi - ij.2))
            ≤ (sliceL b ij.2 (bhi - ij.2)).length := cpl_le_right _ _
          _ ≤ bhi - ij.2 := by simp [sliceL]
      refine ⟨hi1.1, hj1.1, by omega, by omega, ?_⟩
      have hseg := cpl_take (sliceL a ij.1 (ahi - ij.1)) (sliceL b ij.2 (bhi - ij.2))
      have e1 : (sliceL a ij.1 (ahi - ij.1)).take k = sliceL a ij.1 k := by
        simp [sliceL, List.take_take]
        omega
      have e2 : (sliceL b ij.2 (bhi - ij.2)).take k = sliceL b ij.2 k := by
        simp [sliceL, List.take_take]
        omega
      rw [matchLenAt] at hk
      rw [← e1, ← e2, hk]
      exact hseg
    · simp only [if_neg h]
      exact hacc

/-- The chain predicate for a matching-block list: starting from cursor
`(i, j)`, blocks are in order, inside `[0, hi) × [0, hj)` bounds, and each
block's two segments are equal. -/
def ChainedB (a b : List α) (hi hj : Nat) : Nat → Nat → List (Nat × Nat × Nat) → Prop
  | i, j, [] => i ≤ hi ∧ j ≤ hj
  | i, j, (ai, bj, k) :: rest => i ≤ ai ∧ j ≤ bj ∧ ai + k ≤ hi ∧ bj + k ≤ hj ∧
      sliceL a ai k = sliceL b bj k ∧ ChainedB a b hi hj (ai + k) (bj + k) rest

theorem chainedB_start_mono {a b : List α} {hi hj i j i' j' : Nat}
    {bs : List (Nat × Nat × Nat)} (h : ChainedB a b hi hj i j bs)
    (h1 : i' ≤ i) (h2 : j' ≤ j) : ChainedB a b hi hj i' j' bs := by
  cases bs with
  | nil => exact ⟨le_trans h1 h.1, le_trans h2 h.2⟩
  | cons x rest =>
    obtain ⟨ai, bj, k⟩ := x
    exact ⟨le_trans h1 h.1, le_trans h2 h.2.1, h.2.2.1, h.2.2.2.1, h.2.2.2.2.1,
      h.2.2.2.2.2⟩

theorem chainedB_le {a b : List α} {hi hj i j : Nat} {bs : List (Nat × Nat × Nat)}
    (h : ChainedB a b hi hj i j bs) : i ≤ hi ∧ j ≤ hj := by
  induction bs generalizing i j with
  | nil => exact h
  | cons x rest ih =>
    obtain ⟨ai, bj, k⟩ := x
    obtain ⟨g1, g2, g3, g4, g5, g6⟩ := h
    obtain ⟨t1, t2⟩ := ih g6
    exact ⟨by omega, by omega⟩

theorem chainedB_append {a b : List α} {m1 m2 hi hj : Nat} :
    ∀ {bs1 : List (Nat × Nat × Nat)} {i j : Nat} {bs2 : List (Nat × Nat × Nat)},
    ChainedB a b m1 m2 i j bs1 → ChainedB a b hi hj m1 m2 bs2 →
    ChainedB a b hi hj i j (bs1 ++ bs2) := by
  intro bs1
  induction bs1 with
  | nil =>
    intro i j bs2 h1 h2
    exact chainedB_start_mono h2 h1.1 h1.2
  | cons x rest ih =>
    intro i j bs2 h1 h2
    obtain ⟨ai, bj, k⟩ := x
    obtain ⟨g1, g2, g3, g4, g5, g6⟩ := h1
    obtain ⟨hle1, hle2⟩ := chainedB_le h2
    exact ⟨g1, g2, by omega, by omega, g5, ih g6 h2⟩

theorem matchingBlocksAux_chained [DecidableEq α] (a b : List α) :
    ∀ (fuel alo ahi blo bhi : Nat), alo ≤ ahi → blo ≤ bhi →
      ChainedB a b ahi bhi alo blo (matchingBlocksAux a b fuel alo ahi blo bhi) := by
  intro fuel
  induction fuel with
  | zero => intro alo ahi blo bhi ha hb; exact ⟨ha, hb⟩
  | succ fuel ih =>
    intro alo ahi blo bhi ha hb
    rw [matchingBlocksAux]
    have hspec := findLongestMatch_spec a b alo ahi blo bhi ha hb
    set m := findLongestMatch a b alo ahi blo bhi with hm
    by_cases hk : m.2.2 = 0
    · rw [if_pos hk]; exact ⟨ha, hb⟩
    · rw [if_neg hk]
      have hleft : ChainedB a b m.1 m.2.1 alo blo
          (matchingBlocksAux a b fuel alo m.1 blo m.2.1) :=
        ih alo m.1 blo m.2.1 hspec.1 hspec.2.1
      have hright : ChainedB a b ahi bhi (m.1 + m.2.2) (m.2.1 + m.2.2)
          (matchingBlocksAux a b fuel (m.1 + m.2.2) ahi (m.2.1 + m.2.2) bhi) :=
        ih _ _ _ _ hspec.2.2.1 hspec.2.2.2.1
      have hmid : ChainedB a b ahi bhi m.1 m.2.1
          (m :: matchingBlocksAux a b fuel (m.1 + m.2.2) ahi (m.2.1 + m.2.2) bhi) := by
        obtain ⟨mi, mj, mk⟩ := m
        exact ⟨Nat.le_refl _, Nat.le_refl _, hspec.2.2.1, hspec.2.2.2.1,
          hspec.2.2.2.2, hright⟩
      exact chainedB_append hleft hmid

theorem slice_add (l : List α) (i k1 k2 : Nat) :
    sliceL l i (k1 + k2) = sliceL l i k1 ++ sliceL l (i + k1) k2 := by
  show (l.drop i).take (k1 + k2) = (l.drop i).take k1 ++ (l.drop (i + k1)).take k2
  rw [List.take_add, List.drop_drop]

theorem mergeAdjGo_chained {a b : List α} {hi hj : Nat} :
    ∀ (bs : List (Nat × Nat × Nat)) (i1 j1 k1 : Nat),
      ChainedB a b hi hj (i1 + k1) (j1 + k1) bs →
      (k1 ≠ 0 → sliceL a i1 k1 = sliceL b j1 k1 ∧ i1 + k1 ≤ hi ∧ j1 + k1 ≤ hj) →
      ChainedB a b hi hj i1 j1 (mergeAdjGo i1 j1 k1 bs) := by
  intro bs
  induction bs with
  | nil =>
    intro i1 j1 k1 hch hp
    rw [mergeAdjGo]
    by_cases hk : k1 = 0
    · simp only [hk, ne_eq, not_true_eq_false, if_false, ite_false]
      subst hk
      simpa using hch
    · simp only [ne_eq, hk, not_false_eq_true, if_pos, ite_true]
      obtain ⟨hseg, hbi, hbj⟩ := hp hk
      exact ⟨Nat.le_refl _, Nat.le_refl _, hbi, hbj, hseg, hch⟩
  | cons x rest ih =>
    intro i1 j1 k1 hch hp
    obtain ⟨i2, j2, k2⟩ := x
    rw [mergeAdjGo]
    obtain ⟨h12, h22, hk2hi, hk2hj, hseg2, hrest⟩ := hch
    by_cases hadj : i1 + k1 = i2 ∧ j1 + k1 = j2
    · have hcond : (i1 + k1 = i2 && j1 + k1 = j2) = true := by
        simp [hadj.1, hadj.2]
      rw [if_pos hcond]
      apply ih i1 j1 (k1 + k2)
      · have : i1 + (k1 + k2) = i2 + k2 := by omega
        rw [this]
        have : j1 + (k1 + k2) = j2 + k2 := by omega
        rw [this]
        exact hrest
      · intro _
        refine ⟨?_, by omega, by omega⟩
        rw [slice_add a i1 k1 k2, slice_add b j1 k1 k2]
        have e1 : i1 + k1 = i2 := hadj.1
        have e2 : j1 + k1 = j2 := hadj.2
        rw [e1, e2, hseg2]
        by_cases hk : k1 = 0
        · subst hk
          simp [sliceL]
        · rw [(hp hk).1]
    · have hcond : ¬ ((i1 + k1 = i2 && j1 + k1 = j2) = true) := by
        simp only [Bool.and_eq_true, decide_eq_true_eq]
        exact hadj
      rw [if_neg hcond]
      have htail : ChainedB a b hi hj (i1 + k1) (j1 + k1)
          (mergeAdjGo i2 j2 k2 rest) := by
        have := ih i2 j2 k2 hrest (fun hk2 => ⟨hseg2, hk2hi, hk2hj⟩)
        exact chainedB_start_mono this h12 h22
      by_cases hk : k1 = 0
      · simp only [hk, ne_eq, not_true_eq_false, if_false, ite_false, List.nil_append]
        subst hk
        simpa using htail
      · simp only [ne_eq, hk, not_false_eq_true, if_pos, ite_true, List.cons_append,
          List.nil_append]
        obtain ⟨hseg, hbi, hbj⟩ := hp hk
        exact ⟨Nat.le_refl _, Nat.le_refl _, hbi, hbj, hseg, htail⟩

/-- The full matching-block list of `getMatchingBlocks` (sentinel included)
is a valid chain from the origin with window `(len a, len b)`. -/
theorem getMatchingBlocks_chained [DecidableEq α] (a b : List α) :
    ChainedB a b a.length b.length 0 0 (getMatchingBlocks a b) := by
  rw [getMatchingBlocks]
  have hmb := matchingBlocksAux_chained a b (a.length + b.length + 1) 0 a.length 0
    b.length (Nat.zero_le _) (Nat.zero_le _)
  have hmerged : ChainedB a b a.length b.length 0 0
      (mergeAdjGo 0 0 0 (matchingBlocksAux a b (a.length + b.length + 1) 0 a.length 0
        b.length)) := by
    apply mergeAdjGo_chained _ 0 0 0
    · simpa using hmb
    · intro h; exact absurd rfl h
  have hsent : ChainedB a b a.length b.length a.length b.length
      [(a.length, b.length, (0 : Nat))] :=
    ⟨Nat.le_refl _, Nat.le_refl _, by omega, by omega, by simp [sliceL],
      ⟨Nat.le_refl _, Nat.le_refl _⟩⟩
  have hle := chainedB_le hmerged
  exact chainedB_append hmerged (chainedB_start_mono hsent (Nat.le_refl _) (Nat.le_refl _))

theorem drop_eq_slice_append (l : List α) (i k : Nat) :
    l.drop i = sliceL l i k ++ l.drop (i + k) := by
  show l.drop i = (l.drop i).take k ++ l.drop (i + k)
  have h2 : (l.drop i).drop k = l.drop (i + k) := by
    rw [List.drop_drop]
  rw [← h2, List.take_append_drop]

/-- If every opcode emitted by the cursor walk over a valid chain ending at
the sentinel is `equal`, the remaining suffixes of the two sequences agree. -/
theorem opcodesGo_all_equal [DecidableEq α] (a b : List α) :
    ∀ (bs : List (Nat × Nat × Nat)) (i j : Nat),
      ChainedB a b a.length b.length i j (bs ++ [(a.length, b.length, 0)]) →
      (∀ op ∈ opcodesGo i j (bs ++ [(a.length, b.length, 0)]), op.tag = Tag.equal) →
      a.drop i = b.drop j := by
  intro bs
  induction bs with
  | nil =>
    intro i j hch hall
    obtain ⟨h1, h2, _, _, _, _⟩ := hch
    simp only [List.nil_append] at hall
    rw [opcodesGo] at hall
    have hieq : ¬ i < a.length := by
      intro hlt
      by_cases h2' : j < b.length
      · have := hall ⟨Tag.replace, i, a.length, j, b.length⟩ (by
          simp [hlt, h2'])
        simp at this
      · have := hall ⟨Tag.delete, i, a.length, j, b.length⟩ (by
          simp [hlt, h2'])
        simp at this
    have hjeq : ¬ j < b.length := by
      intro hlt
      have := hall ⟨Tag.insert, i, a.length, j, b.length⟩ (by
        simp [hieq, hlt])
      simp at this
    have hi : i = a.length := by omega
    have hj : j = b.length := by omega
    rw [hi, hj, List.drop_length, List.drop_length]
  | cons blk rest ih =>
    intro i j hch hall
    obtain ⟨ai, bj, k⟩ := blk
    obtain ⟨h1, h2, h3, h4, hseg, hrest⟩ := hch
    rw [List.cons_append, opcodesGo] at hall
    have hia : ¬ i < ai := by
      intro hlt
      by_cases h2' : j < bj
      · have := hall ⟨Tag.replace, i, ai, j, bj⟩ (by simp [hlt, h2'])
        simp at this
      · have := hall ⟨Tag.delete, i, ai, j, bj⟩ (by simp [hlt, h2'])
        simp at this
    have hjb : ¬ j < bj := by
      intro hlt
      have := hall ⟨Tag.insert, i, ai, j, bj⟩ (by simp [hia, hlt])
      simp at this
    have hi : i = ai := by omega
    have hj : j = bj := by omega
    subst hi hj
    have htail := ih (i + k) (j + k) hrest (by
      intro op hop
      apply hall
      exact List.mem_append_right _ hop)
    rw [drop_eq_slice_append a i k, drop_eq_slice_append b j k, hseg, htail]

/-!
## Renderers of `src/comparator.py`
-/

/-- `html.escape(s)` (with its default quoting): per-character expansion of
the five markup-sensitive characters. -/
def escChar (c : Char) : Str :=
  if c = '&' then "&amp;".data
  else if c = '<' then "&lt;".data
  else if c = '>' then "&gt;".data
  else if c = '"' then "&quot;".data
  else if c = '\'' then "&#x27;".data
  else [c]

/-- `html.escape`. -/
def htmlEscape (s : Str) : Str := s.flatMap escChar

/-- `re.split(r'(\s+)', line)` with empty pieces dropped: the maximal runs
of whitespace and non-whitespace characters, in order (`words1 = [w for w in
words1 if w]` in the sources).  `cur` is the current run, reversed. -/
def wordTokensGo (cur : Str) : Str → List Str
  | [] => if cur = [] then [] else [cur.reverse]
  | c :: rest =>
    match cur with
    | [] => wordTokensGo [c] rest
    | d :: _ =>
      if pySpace c = pySpace d then wordTokensGo (c :: cur) rest
      else cur.reverse :: wordTokensGo [c] rest

/-- Word tokenization shared by both word-level diff renderers (identical
code at `src/comparator.py` lines 79-80 and `src/llm_comparator.py`
lines 296-300). -/
def wordTokens (s : Str) : List Str := wordTokensGo [] s

/-- `"".join(l)`. -/
def concatL (l : List Str) : Str := joinSep [] l

/-- `"".join(words1[i1:i2])`: the A-side text of an opcode over a token
sequence. -/
def segA (w : List Str) (op : Opcode) : Str := concatL (sliceL w op.i1 (op.i2 - op.i1))

/-- `"".join(words2[j1:j2])`: the B-side text of an opcode over a token
sequence. -/
def segB (w : List Str) (op : Opcode) : Str := concatL (sliceL w op.j1 (op.j2 - op.j1))

/-- One opcode of `PDFComparator._generate_word_diff_html`
(`src/comparator.py` lines 85-105). -/
def genWordDiffStep (words1 words2 : List Str) (op : Opcode) : Str :=
  let escaped1 := htmlEscape (segA words1 op)
  let escaped2 := htmlEscape (segB words2 op)
  match op.tag with
  | .equal => escaped2
  | .delete => "<span class='word-deleted'>".data ++ escaped1 ++ "</span>".data
  | .insert => "<span class='word-added'>".data ++ escaped2 ++ "</span>".data
  | .replace =>
    (if pyStrip escaped1 ≠ [] then
      "<span class='word-deleted'>".data ++ escaped1 ++ "</span>".data else []) ++
    (if pyStrip escaped2 ≠ [] then
      "<span class='word-added'>".data ++ escaped2 ++ "</span>".data else [])

/-- `PDFComparator._generate_word_diff_html(line1, line2)` (lines 76-107). -/
def generateWordDiffHtml (line1 line2 : Str) : Str :=
  let words1 := wordTokens line1
  let words2 := wordTokens line2
  concatL ((getOpcodes words1 words2).map (genWordDiffStep words1 words2))

/-- Length of the URL match of
`re.compile(r"((?:https?://|ftp://|www\.)[^\s/$.?#].[^\s]*)")` anchored at
the start of `s`, if any. -/
def urlMatchLen (s : Str) : Option Nat :=
  let pl : Option Nat :=
    if "https://".data.isPrefixOf s then some 8
    else if "http://".data.isPrefixOf s then some 7
    else if "ftp://".data.isPrefixOf s then some 6
    else if "www.".data.isPrefixOf s then some 4
    else none
  match pl with
  | none => none
  | some n =>
    match s.drop n with
    | c1 :: c2 :: rest =>
      if !pySpace c1 &&
          !(c1 = '/' || c1 = '$' || c1 = '.' || c1 = '?' || c1 = '#') &&
          c2 ≠ '\n' then
        some (n + 2 + (rest.takeWhile (fun d => !pySpace d)).length)
      else none
    | _ => none

/-- Left-to-right scan of `url_pattern.finditer(line)`, returning match
spans `[start, end)`.  `fuel` dominates the scan length (every step consumes
at least one character); it is always called with `length + 1`. -/
def urlFindGo : Nat → Str → Nat → List (Nat × Nat)
  | 0, _, _ => []
  | _, [], _ => []
  | fuel + 1, s, pos =>
    match urlMatchLen s with
    | some len => (pos, pos + len) :: urlFindGo fuel (s.drop len) (pos + len)
    | none => urlFindGo fuel (s.drop 1) (pos + 1)

/-- The spans of `url_pattern.finditer(line)`. -/
def urlFinditer (s : Str) : List (Nat × Nat) := urlFindGo (s.length + 1) s 0

/-- The `<a>` element built by `_format_links` from the escaped href and the
escaped display text. -/
def anchorHtml (safeHref safeDisplay : Str) : Str :=
  "<a href=\"".data ++ safeHref ++
    "\" target=\"_blank\" title=\"Open link: ".data ++ safeHref ++
    "\">".data ++ safeDisplay ++ "</a>".data

/-- The `href` chosen by `_format_links` for a matched URL (lines 116-118):
an `http://` scheme is synthesized for bare `www.` matches. -/
def hrefFor (url : Str) : Str :=
  if "www.".data.isPrefixOf url &&
      !("http://".data.isPrefixOf url || "https://".data.isPrefixOf url ||
        "ftp://".data.isPrefixOf url) then
    "http://".data ++ url
  else url

/-- The parts list built by the loop of `PDFComparator._format_links`
(`src/comparator.py` lines 112-124): escaped gap, then anchor, per match. -/
def formatLinksParts (line : Str) : List (Nat × Nat) → Nat → List Str
  | [], lastEnd => [htmlEscape (line.drop lastEnd)]
  | (s, e) :: ms, lastEnd =>
    let url := sliceL line s (e - s)
    htmlEscape (sliceL line lastEnd (s - lastEnd)) ::
      anchorHtml (htmlEscape (hrefFor url)) (htmlEscape url) ::
      formatLinksParts line ms e

/-- `PDFComparator._format_links(line)` (lines 109-125). -/
def formatLinks (line : Str) : Str :=
  concatL (formatLinksParts line (urlFinditer line) 0)

/-- One rendered diff line
`<span class='diff-line CLS'><span class='diff-marker'>M</span>...</span>`. -/
def diffLineHtml (cls marker content : Str) : Str :=
  "<span class='diff-line ".data ++ cls ++
    "'><span class='diff-marker'>".data ++ marker ++ "</span>".data ++
    content ++ "</span>".data

/-- The escape-then-link composition applied to every non-word-diff line of
`_generate_diff_html_with_word_level` (e.g. lines 138-139). -/
def escapeLinkLine (line : Str) : Str := formatLinks (htmlEscape line)

/-- The summary dictionary of the lexical engine. -/
structure LexSummary where
  lines_added : Nat
  lines_deleted : Nat
  lines_modified : Nat
deriving DecidableEq, Repr

/-- One opcode of `PDFComparator._generate_diff_html_with_word_level`
(`src/comparator.py` lines 135-176): emitted line fragments and the
increments of `lines_added`, `lines_deleted`, `lines_modified`. -/
def lexStep (l1 l2 : List Str) (op : Opcode) : List Str × Nat × Nat × Nat :=
  match op.tag with
  | .equal =>
    ((sliceL l1 op.i1 (op.i2 - op.i1)).map (fun line =>
      diffLineHtml "diff-equal".data " ".data (escapeLinkLine line)), 0, 0, 0)
  | .insert =>
    ((sliceL l2 op.j1 (op.j2 - op.j1)).map (fun line =>
      diffLineHtml "diff-added".data "+".data (escapeLinkLine line)),
     (sliceL l2 op.j1 (op.j2 - op.j1)).length, 0, 0)
  | .delete =>
    ((sliceL l1 op.i1 (op.i2 - op.i1)).map (fun line =>
      diffLineHtml "diff-deleted".data "-".data (escapeLinkLine line)),
     0, (sliceL l1 op.i1 (op.i2 - op.i1)).length, 0)
  | .replace =>
    let len1 := op.i2 - op.i1
    let len2 := op.j2 - op.j1
    ((List.range (max len1 len2)).filterMap (fun t =>
      let line1 := if t < len1 then l1.getD (op.i1 + t) [] else []
      let line2 := if t < len2 then l2.getD (op.j1 + t) [] else []
      if line1 ≠ [] && line2 ≠ [] then
        some (diffLineHtml "diff-modified".data "*".data
          (generateWordDiffHtml line1 line2))
      else if line2 ≠ [] then
        some (diffLineHtml "diff-added".data "+".data (escapeLinkLine line2))
      else if line1 ≠ [] then
        some (diffLineHtml "diff-deleted".data "-".data (escapeLinkLine line1))
      else none),
     0, 0, max len1 len2)

/-- `PDFComparator._generate_diff_html_with_word_level(text1_lines,
text2_lines)` (lines 127-180): the newline-joined rendered lines and the
summary set by the fold over opcodes. -/
def generateDiffHtmlWithWordLevel (l1 l2 : List Str) : Str × LexSummary :=
  let results := (getOpcodes l1 l2).map (lexStep l1 l2)
  (joinSep ['\n'] (results.flatMap (·.1)),
   ⟨(results.map (·.2.1)).sum, (results.map (·.2.2.1)).sum,
    (results.map (·.2.2.2)).sum⟩)

/-- The summary produced by `PDFComparator.compare` for a given pair of
preprocessed line sequences (lines 220-233): equal sequences take the
identical fast path and keep the zero summary set at line 187; unequal
sequences get the summary of `_generate_diff_html_with_word_level`. -/
def pdfLexSummary (l1 l2 : List Str) : LexSummary :=
  if l1 = l2 then ⟨0, 0, 0⟩ else (generateDiffHtmlWithWordLevel l1 l2).2

theorem opcodesGo_tag_bounds [DecidableEq α] (a b : List α) :
    ∀ (bs : List (Nat × Nat × Nat)) (i j : Nat),
      ChainedB a b a.length b.length i j bs →
      ∀ op ∈ opcodesGo i j bs,
        (op.tag = Tag.insert → op.j1 < op.j2 ∧ op.j2 ≤ b.length) ∧
        (op.tag = Tag.delete → op.i1 < op.i2 ∧ op.i2 ≤ a.length) ∧
        (op.tag = Tag.replace →
          op.i1 < op.i2 ∧ op.i2 ≤ a.length ∧ op.j1 < op.j2 ∧ op.j2 ≤ b.length) := by
  intro bs
  induction bs with
  | nil =>
    intro i j _ op hop
    rw [opcodesGo] at hop
    exact absurd hop (List.not_mem_nil op)
  | cons blk rest ih =>
    intro i j hch op hop
    obtain ⟨ai, bj, k⟩ := blk
    obtain ⟨h1, h2, h3, h4, hseg5, hrest⟩ := hch
    have hab : ai ≤ a.length := by omega
    have hbb : bj ≤ b.length := by omega
    rw [opcodesGo] at hop
    rcases List.mem_append.mp hop with hop1 | hoptail
    · rcases List.mem_append.mp hop1 with hgap | heq
      · by_cases c1 : i < ai
        · by_cases c2 : j < bj
          · simp [c1, c2] at hgap
            subst hgap
            refine ⟨fun ht => ?_, fun ht => ?_, fun ht => ?_⟩
            · simp at ht
            · simp at ht
            · exact ⟨c1, hab, c2, hbb⟩
          · simp [c1, c2] at hgap
            subst hgap
            refine ⟨fun ht => ?_, fun ht => ?_, fun ht => ?_⟩
            · simp at ht
            · exact ⟨c1, hab⟩
            · simp at ht
        · by_cases c2 : j < bj
          · simp [c1, c2] at hgap
            subst hgap
            refine ⟨fun ht => ?_, fun ht => ?_, fun ht => ?_⟩
            · exact ⟨c2, hbb⟩
            · simp at ht
            · simp at ht
          · simp [c1, c2] at hgap
      · by_cases ck : k = 0
        · simp [ck] at heq
        · simp [ck] at heq
          subst heq
          refine ⟨fun ht => ?_, fun ht => ?_, fun ht => ?_⟩
          · simp at ht
          · simp at ht
          · simp at ht
    · exact ih (ai + k) (bj + k) hrest op hoptail

/-- C4: for every pair of line sequences handled by `PDFComparator.compare`,
`lines_added + lines_deleted + lines_modified = 0` iff the two sequences are
equal: equal sequences take the identical fast path with the all-zero
summary, and unequal sequences always increment at least one counter. -/
theorem pdfLexSummary_zero_iff (l1 l2 : List Str) :
    (pdfLexSummary l1 l2).lines_added + (pdfLexSummary l1 l2).lines_deleted +
      (pdfLexSummary l1 l2).lines_modified = 0 ↔ l1 = l2 := by
  constructor
  · intro hz
    by_contra hne
    rw [pdfLexSummary, if_neg hne] at hz
    have ea : (generateDiffHtmlWithWordLevel l1 l2).2.lines_added
        = (((getOpcodes l1 l2).map (lexStep l1 l2)).map (·.2.1)).sum := rfl
    have ed : (generateDiffHtmlWithWordLevel l1 l2).2.lines_deleted
        = (((getOpcodes l1 l2).map (lexStep l1 l2)).map (·.2.2.1)).sum := rfl
    have em : (generateDiffHtmlWithWordLevel l1 l2).2.lines_modified
        = (((getOpcodes l1 l2).map (lexStep l1 l2)).map (·.2.2.2)).sum := rfl
    rw [ea, ed, em] at hz
    have hza : ∀ op ∈ getOpcodes l1 l2, (lexStep l1 l2 op).2.1 = 0 := by
      intro op hop
      have h0 : (((getOpcodes l1 l2).map (lexStep l1 l2)).map (·.2.1)).sum = 0 := by
        omega
      exact List.sum_eq_zero_iff.mp h0 _
        (List.mem_map_of_mem _ (List.mem_map_of_mem _ hop))
    have hzd : ∀ op ∈ getOpcodes l1 l2, (lexStep l1 l2 op).2.2.1 = 0 := by
      intro op hop
      have h0 : (((getOpcodes l1 l2).map (lexStep l1 l2)).map (·.2.2.1)).sum = 0 := by
        omega
      exact List.sum_eq_zero_iff.mp h0 _
        (List.mem_map_of_mem _ (List.mem_map_of_mem _ hop))
    have hzm : ∀ op ∈ getOpcodes l1 l2, (lexStep l1 l2 op).2.2.2 = 0 := by
      intro op hop
      have h0 : (((getOpcodes l1 l2).map (lexStep l1 l2)).map (·.2.2.2)).sum = 0 := by
        omega
      exact List.sum_eq_zero_iff.mp h0 _
        (List.mem_map_of_mem _ (List.mem_map_of_mem _ hop))
    have hchain := getMatchingBlocks_chained l1 l2
    have hall : ∀ op ∈ getOpcodes l1 l2, op.tag = Tag.equal := by
      intro op hop
      have hbounds := opcodesGo_tag_bounds l1 l2 (getMatchingBlocks l1 l2) 0 0
        hchain op hop
      cases htag : op.tag with
      | equal => rfl
      | insert =>
        exfalso
        obtain ⟨hj12, hj2⟩ := hbounds.1 htag
        have hc := hza op hop
        have hstep : (lexStep l1 l2 op).2.1 =
            (sliceL l2 op.j1 (op.j2 - op.j1)).length := by
          simp [lexStep, htag]
        rw [hstep] at hc
        have hlen : (sliceL l2 op.j1 (op.j2 - op.j1)).length =
            min (op.j2 - op.j1) (l2.length - op.j1) := by
          simp [sliceL]
        omega
      | delete =>
        exfalso
        obtain ⟨hi12, hi2⟩ := hbounds.2.1 htag
        have hc := hzd op hop
        have hstep : (lexStep l1 l2 op).2.2.1 =
            (sliceL l1 op.i1 (op.i2 - op.i1)).length := by
          simp [lexStep, htag]
        rw [hstep] at hc
        have hlen : (sliceL l1 op.i1 (op.i2 - op.i1)).length =
            min (op.i2 - op.i1) (l1.length - op.i1) := by
          simp [sliceL]
        omega
      | replace =>
        exfalso
        obtain ⟨hi12, hi2, hj12, hj2⟩ := hbounds.2.2 htag
        have hc := hzm op hop
        have hstep : (lexStep l1 l2 op).2.2.2 =
            max (op.i2 - op.i1) (op.j2 - op.j1) := by
          simp [lexStep, htag]
        rw [hstep] at hc
        omega
    have heq := opcodesGo_all_equal l1 l2
      (mergeAdjGo 0 0 0
        (matchingBlocksAux l1 l2 (l1.length + l2.length + 1) 0 l1.length 0 l2.length))
      0 0 hchain hall
    rw [List.drop_zero, List.drop_zero] at heq
    exact hne heq
  · intro h
    rw [pdfLexSummary, if_pos h]
    rfl

theorem filterMapCongrMap (f : γ → Option β) (g : γ → β) :
    ∀ l : List γ, (∀ t ∈ l, f t = some (g t)) → l.filterMap f = l.map g := by
  intro l
  induction l with
  | nil => intro _; rfl
  | cons x t ih =>
    intro h
    rw [List.filterMap_cons, h x (List.mem_cons_self x t), List.map_cons,
      ih (fun y hy => h y (List.mem_cons_of_mem x hy))]

theorem getD_mem_of_lt (l : List α) (n : Nat) (d : α) (h : n < l.length) :
    l.getD n d ∈ l := by
  rw [List.getD_eq_getElem l d h]
  exact List.getElem_mem h

/-- C5: on a `replace` opcode with in-bounds spans over sequences of
non-empty lines (as every normalized line is), the lexical engine adds
`max(len1, len2)` to `lines_modified` and pairs lines positionally up to
that maximum: both sides present → word-level diff rendered inline as
modified; only the B-side line → rendered as added; only the A-side line →
rendered as deleted.  No other counter changes. -/
theorem lexStep_replace (l1 l2 : List Str) (i1 i2 j1 j2 : Nat)
    (h1 : ∀ ℓ ∈ l1, ℓ ≠ []) (h2 : ∀ ℓ ∈ l2, ℓ ≠ [])
    (hi : i2 ≤ l1.length) (hj : j2 ≤ l2.length) :
    lexStep l1 l2 ⟨Tag.replace, i1, i2, j1, j2⟩ =
      ((List.range (max (i2 - i1) (j2 - j1))).map (fun t =>
        if t < i2 - i1 ∧ t < j2 - j1 then
          diffLineHtml "diff-modified".data "*".data
            (generateWordDiffHtml (l1.getD (i1 + t) []) (l2.getD (j1 + t) []))
        else if t < j2 - j1 then
          diffLineHtml "diff-added".data "+".data
            (escapeLinkLine (l2.getD (j1 + t) []))
        else
          diffLineHtml "diff-deleted".data "-".data
            (escapeLinkLine (l1.getD (i1 + t) []))),
       0, 0, max (i2 - i1) (j2 - j1)) := by
  show ((List.range (max (i2 - i1) (j2 - j1))).filterMap _, 0, 0,
      max (i2 - i1) (j2 - j1)) = _
  refine Prod.ext ?_ rfl
  simp only
  apply filterMapCongrMap
  intro t ht
  have htmax := List.mem_range.mp ht
  by_cases c1 : t < i2 - i1
  · have hl1 : l1.getD (i1 + t) [] ≠ [] :=
      h1 _ (getD_mem_of_lt l1 (i1 + t) [] (by omega))
    by_cases c2 : t < j2 - j1
    · have hl2 : l2.getD (j1 + t) [] ≠ [] :=
        h2 _ (getD_mem_of_lt l2 (j1 + t) [] (by omega))
      simp only [c1, c2, if_pos, ite_true, hl1, hl2, ne_eq, not_false_eq_true,
        decide_not]
      simp [hl1, hl2, c1, c2]
    · simp only [c1, c2, ite_true, ite_false]
      have : ¬ (t < i2 - i1 ∧ t < j2 - j1) := by omega
      have hl1' : ¬ l1[i1 + t]?.getD [] = [] := by
        simpa [List.getD] using hl1
      simp [this, c1, c2, hl1']
  · have c2 : t < j2 - j1 := by omega
    have hl2 : l2.getD (j1 + t) [] ≠ [] :=
      h2 _ (getD_mem_of_lt l2 (j1 + t) [] (by omega))
    have : ¬ (t < i2 - i1 ∧ t < j2 - j1) := by omega
    have hl2' : ¬ l2[j1 + t]?.getD [] = [] := by
      simpa [List.getD] using hl2
    simp [this, c1, c2, hl2']

/-- Witness for `lexStep_replace`: a concrete one-line-for-one-line replace
opcode is rendered as a single word-level-diffed modified line and counts
one modified line. -/
theorem lexStep_replace_witness :
    lexStep ["cat".data] ["dog".data] ⟨Tag.replace, 0, 1, 0, 1⟩ =
      ([diffLineHtml "diff-modified".data "*".data
        (generateWordDiffHtml "cat".data "dog".data)], 0, 0, 1) := by
  have h := lexStep_replace ["cat".data] ["dog".data] 0 1 0 1
    (by decide) (by decide) (by decide) (by decide)
  rw [h]
  rfl

/-!
## `GroqPDFComparator._render_word_diff_html` (`src/llm_comparator.py`)
-/

/-- The `.replace('\n', '<br>\n')` applied after escaping in the semantic
renderer (lines 313-314). -/
def brReplace (s : Str) : Str :=
  s.flatMap (fun c => if c = '\n' then "<br>\n".data else [c])

/-- One opcode of `GroqPDFComparator._render_word_diff_html`
(`src/llm_comparator.py` lines 305-346). -/
def renderWordDiffStep (words1 words2 : List Str) (op : Opcode) : Str :=
  let e1 := brReplace (htmlEscape (segA words1 op))
  let e2 := brReplace (htmlEscape (segB words2 op))
  match op.tag with
  | .equal => "<span class='llm-word status-equal'>".data ++ e2 ++ "</span>".data
  | .delete =>
    if pyStrip e1 ≠ [] ∧ e1 ≠ "<br>\n".data then
      "<span class='llm-word status-deleted'>".data ++ e1 ++ "</span>".data
    else e1
  | .insert =>
    if pyStrip e2 ≠ [] ∧ e2 ≠ "<br>\n".data then
      "<span class='llm-word status-added'>".data ++ e2 ++ "</span>".data
    else e2
  | .replace =>
    if pyStrip e2 ≠ [] ∧ e2 ≠ "<br>\n".data then
      "<span class='llm-word status-modified'>".data ++ e2 ++ "</span>".data
    else if pyStrip e1 = [] ∧ e2 ≠ [] then e2
    else if pyStrip e1 ≠ [] ∧ pyStrip e2 = [] then
      "<span class='llm-word status-deleted'>".data ++ e1 ++ "</span>".data
    else if e1 ≠ [] ∧ e2 ≠ [] then e2
    else []

/-- `GroqPDFComparator._render_word_diff_html(text1, text2)`
(lines 293-347). -/
def renderWordDiffHtml (text1 text2 : Str) : Str :=
  let words1 := wordTokens text1
  let words2 := wordTokens text2
  concatL ((getOpcodes words1 words2).map (renderWordDiffStep words1 words2))

/-- C6 counterexample: the two word-level diff renderers do not map opcodes
identically.  On `("cat", "dog")` the single `replace` opcode is rendered by
the lexical path as a removed segment followed by an added segment, but by
the semantic path as one `modified` segment carrying only the B-side text —
no removed segment for the non-blank A-side text is emitted. -/
theorem wordDiff_paths_differ :
    generateWordDiffHtml "cat".data "dog".data =
      "<span class='word-deleted'>cat</span><span class='word-added'>dog</span>".data ∧
    renderWordDiffHtml "cat".data "dog".data =
      "<span class='llm-word status-modified'>dog</span>".data := by decide

/-- C6 (amended): both word-level diff renderers tokenize identically and
consume the same opcode stream, and agree in substance on `Equal` (both
emit the B-side text as the content; the semantic path wraps it in a
`status-equal` span and substitutes `<br>` for newlines).  They differ on
the other tags.  The lexical path (`_generate_word_diff_html`) styles
`delete`/`insert` segments unconditionally — even whitespace-only ones —
while the semantic path (`_render_word_diff_html`) styles a
`delete`/`insert` segment exactly when its escaped, `<br>`-substituted form
neither strips to empty nor equals `"<br>\n"`: a newline-free
whitespace-only segment, or the lone-newline segment, passes through
unstyled, but a whitespace-only segment containing newlines in any other
shape (e.g. `"\n\n"`) is styled by BOTH paths — so neither renderer
satisfies the spec's "never emit a styled segment consisting purely of
whitespace".  On `Replace` the lexical path emits a removed segment for the
non-blank A-side followed by an added segment for the non-blank B-side,
while the semantic path emits a single `modified` segment carrying the
B-side text whenever its substituted form is non-blank and not the lone
newline. -/
theorem wordDiff_tag_mapping (w1 w2 : List Str) (op : Opcode) :
    (op.tag = Tag.equal →
      genWordDiffStep w1 w2 op = htmlEscape (segB w2 op) ∧
      renderWordDiffStep w1 w2 op =
        "<span class='llm-word status-equal'>".data ++
          brReplace (htmlEscape (segB w2 op)) ++ "</span>".data) ∧
    (op.tag = Tag.delete →
      genWordDiffStep w1 w2 op =
        "<span class='word-deleted'>".data ++ htmlEscape (segA w1 op) ++
          "</span>".data ∧
      (pyStrip (brReplace (htmlEscape (segA w1 op))) ≠ [] ∧
          brReplace (htmlEscape (segA w1 op)) ≠ "<br>\n".data →
        renderWordDiffStep w1 w2 op =
          "<span class='llm-word status-deleted'>".data ++
            brReplace (htmlEscape (segA w1 op)) ++ "</span>".data) ∧
      (pyStrip (brReplace (htmlEscape (segA w1 op))) = [] →
        renderWordDiffStep w1 w2 op = brReplace (htmlEscape (segA w1 op))) ∧
      (brReplace (htmlEscape (segA w1 op)) = "<br>\n".data →
        renderWordDiffStep w1 w2 op = brReplace (htmlEscape (segA w1 op)))) ∧
    (op.tag = Tag.insert →
      genWordDiffStep w1 w2 op =
        "<span class='word-added'>".data ++ htmlEscape (segB w2 op) ++
          "</span>".data ∧
      (pyStrip (brReplace (htmlEscape (segB w2 op))) ≠ [] ∧
          brReplace (htmlEscape (segB w2 op)) ≠ "<br>\n".data →
        renderWordDiffStep w1 w2 op =
          "<span class='llm-word status-added'>".data ++
            brReplace (htmlEscape (segB w2 op)) ++ "</span>".data) ∧
      (pyStrip (brReplace (htmlEscape (segB w2 op))) = [] →
        renderWordDiffStep w1 w2 op = brReplace (htmlEscape (segB w2 op))) ∧
      (brReplace (htmlEscape (segB w2 op)) = "<br>\n".data →
        renderWordDiffStep w1 w2 op = brReplace (htmlEscape (segB w2 op)))) ∧
    (op.tag = Tag.replace →
      genWordDiffStep w1 w2 op =
        (if pyStrip (htmlEscape (segA w1 op)) ≠ [] then
          "<span class='word-deleted'>".data ++ htmlEscape (segA w1 op) ++
            "</span>".data
         else []) ++
        (if pyStrip (htmlEscape (segB w2 op)) ≠ [] then
          "<span class='word-added'>".data ++ htmlEscape (segB w2 op) ++
            "</span>".data
         else []) ∧
      (pyStrip (brReplace (htmlEscape (segB w2 op))) ≠ [] ∧
          brReplace (htmlEscape (segB w2 op)) ≠ "<br>\n".data →
        renderWordDiffStep w1 w2 op =
          "<span class='llm-word status-modified'>".data ++
            brReplace (htmlEscape (segB w2 op)) ++ "</span>".data)) := by
  refine ⟨fun ht => ?_, fun ht => ?_, fun ht => ?_, fun ht => ?_⟩
  · constructor
    · simp [genWordDiffStep, ht]
    · simp [renderWordDiffStep, ht]
  · refine ⟨?_, fun hc => ?_, fun hc => ?_, fun hc => ?_⟩
    · simp [genWordDiffStep, ht]
    · simp [renderWordDiffStep, ht, hc.1, hc.2]
    · have hcond : ¬ (pyStrip (brReplace (htmlEscape (segA w1 op))) ≠ [] ∧
          brReplace (htmlEscape (segA w1 op)) ≠ "<br>\n".data) := by
        intro hcontra
        exact hcontra.1 hc
      simp [renderWordDiffStep, ht, hcond]
    · have hcond : ¬ (pyStrip (brReplace (htmlEscape (segA w1 op))) ≠ [] ∧
          brReplace (htmlEscape (segA w1 op)) ≠ "<br>\n".data) := by
        intro hcontra
        exact hcontra.2 hc
      simp [renderWordDiffStep, ht, hcond]
  · refine ⟨?_, fun hc => ?_, fun hc => ?_, fun hc => ?_⟩
    · simp [genWordDiffStep, ht]
    · simp [renderWordDiffStep, ht, hc.1, hc.2]
    · have hcond : ¬ (pyStrip (brReplace (htmlEscape (segB w2 op))) ≠ [] ∧
          brReplace (htmlEscape (segB w2 op)) ≠ "<br>\n".data) := by
        intro hcontra
        exact hcontra.1 hc
      simp [renderWordDiffStep, ht, hcond]
    · have hcond : ¬ (pyStrip (brReplace (htmlEscape (segB w2 op))) ≠ [] ∧
          brReplace (htmlEscape (segB w2 op)) ≠ "<br>\n".data) := by
        intro hcontra
        exact hcontra.2 hc
      simp [renderWordDiffStep, ht, hcond]
  · refine ⟨?_, fun hc => ?_⟩
    · simp [genWordDiffStep, ht]
    · simp [renderWordDiffStep, ht, hc.1, hc.2]

/-- Witness for `wordDiff_tag_mapping`: on the whitespace-only `delete`
segment `" "` the lexical path emits a styled removed span while the
semantic path passes the space through unstyled; on the newline-bearing
whitespace-only segment `"\n\n"` BOTH paths emit styled spans; and on the
lone-newline segment `"\n"` the semantic path passes `"<br>\n"` through
unstyled. -/
theorem wordDiff_tag_mapping_witness :
    (genWordDiffStep [" ".data] [] ⟨Tag.delete, 0, 1, 0, 0⟩ =
      "<span class='word-deleted'> </span>".data ∧
     renderWordDiffStep [" ".data] [] ⟨Tag.delete, 0, 1, 0, 0⟩ = " ".data) ∧
    (genWordDiffStep ["\n\n".data] [] ⟨Tag.delete, 0, 1, 0, 0⟩ =
      "<span class='word-deleted'>\n\n</span>".data ∧
     renderWordDiffStep ["\n\n".data] [] ⟨Tag.delete, 0, 1, 0, 0⟩ =
      "<span class='llm-word status-deleted'><br>\n<br>\n</span>".data) ∧
    renderWordDiffStep ["\n".data] [] ⟨Tag.delete, 0, 1, 0, 0⟩ =
      "<br>\n".data := by
  have h := wordDiff_tag_mapping [" ".data] [] ⟨Tag.delete, 0, 1, 0, 0⟩
  have h2 := wordDiff_tag_mapping ["\n\n".data] [] ⟨Tag.delete, 0, 1, 0, 0⟩
  have h3 := wordDiff_tag_mapping ["\n".data] [] ⟨Tag.delete, 0, 1, 0, 0⟩
  exact ⟨⟨(h.2.1 rfl).1, (h.2.1 rfl).2.2.1 (by decide)⟩,
    ⟨(h2.2.1 rfl).1, (h2.2.1 rfl).2.1 (by decide)⟩,
    (h3.2.1 rfl).2.2.2 (by decide)⟩

/-!
## Semantic block reconciler (`GroqPDFComparator.compare` and helpers)
-/

/-- The four validated block statuses. -/
inductive BlockStatus where
  | equal | added | deleted | modified
deriving DecidableEq, Repr

/-- A validated change block. -/
structure ChangeBlock where
  status : BlockStatus
  text1 : Str
  text2 : Str
deriving DecidableEq, Repr

/-- A parsed (but unvalidated) block of the oracle's JSON response: each
field may be absent or null. -/
structure RawBlock where
  status : Option Str
  text1 : Option Str
  text2 : Option Str
deriving DecidableEq, Repr

/-- The `valid_statuses` check of `_call_groq_change_blocks` (line 229-230
of `src/llm_comparator.py`). -/
def parseStatus : Option Str → Option BlockStatus
  | some s =>
    if s = "equal".data then some BlockStatus.equal
    else if s = "added".data then some BlockStatus.added
    else if s = "deleted".data then some BlockStatus.deleted
    else if s = "modified".data then some BlockStatus.modified
    else none
  | none => none

/-- The per-block validation loop of `_call_groq_change_blocks`
(lines 222-252): an invalid status raises a `ValueError` (an oracle error);
missing texts default to empty; `deleted` blocks are forced to
`text2 = ""` and `added` blocks to `text1 = ""` (logged, never fatal). -/
def validateBlocks : List RawBlock → Except String (List ChangeBlock)
  | [] => .ok []
  | item :: rest =>
    match parseStatus item.status with
    | none => .error "LLM Response Validation Error: invalid status"
    | some st =>
      let t1 := if st = BlockStatus.added then [] else item.text1.getD []
      let t2 := if st = BlockStatus.deleted then [] else item.text2.getD []
      match validateBlocks rest with
      | .error e => .error e
      | .ok bs => .ok (⟨st, t1, t2⟩ :: bs)

/-- `GroqPDFComparator._call_groq_change_blocks` (lines 182-291), with the
network call and JSON parse modelled by its argument: an API error kind /
invalid JSON is `Except.error`, a parsed block list is `Except.ok` and is
then validated.  Every failure carries a non-null error message (the code
sets `self.error_message` in every failing branch before returning
`None`). -/
def callGroqChangeBlocks (resp : Except String (List RawBlock)) :
    Except String (List ChangeBlock) :=
  match resp with
  | .error e => .error e
  | .ok raw => validateBlocks raw

/-- Result of the reconciliation loop of `GroqPDFComparator.compare`:
`success` is `self.success`, `returned` the boolean returned by `compare`,
`calls` the indices of chunk pairs for which the oracle was invoked (the
call counter is `calls.length`). -/
structure LLMResult where
  success : Bool
  returned : Bool
  errorMessage : Option String
  blocks : List ChangeBlock
  calls : List Nat
deriving DecidableEq, Repr

/-- The chunk-pair loop of `GroqPDFComparator.compare` (lines 510-545):
missing chunks are treated as `""`; both sides blank → skip; one side blank
→ local `added`/`deleted` block; equal sides → local `equal` block;
otherwise the oracle is called, a failure aborting immediately with
`success = False` (lines 539-542).  `rem` counts the remaining pairs. -/
def llmLoopGo (oracle : Str → Str → Except String (List RawBlock))
    (chunks1 chunks2 : List Str) :
    Nat → Nat → List ChangeBlock → List Nat → LLMResult
  | 0, _, acc, calls => ⟨true, true, none, acc, calls⟩
  | rem + 1, i, acc, calls =>
    let chunk1 := chunks1.getD i []
    let chunk2 := chunks2.getD i []
    if pyStrip chunk1 = [] ∧ pyStrip chunk2 = [] then
      llmLoopGo oracle chunks1 chunks2 rem (i + 1) acc calls
    else if pyStrip chunk1 = [] ∧ pyStrip chunk2 ≠ [] then
      llmLoopGo oracle chunks1 chunks2 rem (i + 1)
        (acc ++ [⟨BlockStatus.added, [], chunk2⟩]) calls
    else if pyStrip chunk1 ≠ [] ∧ pyStrip chunk2 = [] then
      llmLoopGo oracle chunks1 chunks2 rem (i + 1)
        (acc ++ [⟨BlockStatus.deleted, chunk1, []⟩]) calls
    else if chunk1 = chunk2 then
      llmLoopGo oracle chunks1 chunks2 rem (i + 1)
        (acc ++ [⟨BlockStatus.equal, chunk1, chunk2⟩]) calls
    else
      match callGroqChangeBlocks (oracle chunk1 chunk2) with
      | .error e => ⟨false, false, some e, acc, calls ++ [i]⟩
      | .ok bs => llmLoopGo oracle chunks1 chunks2 rem (i + 1) (acc ++ bs) (calls ++ [i])

/-- The reconciliation of `GroqPDFComparator.compare` over already-extracted
chunk lists: `num_chunks_to_process = max(len(chunks1), len(chunks2))`
(line 506). -/
def llmCompareChunks (oracle : Str → Str → Except String (List RawBlock))
    (chunks1 chunks2 : List Str) : LLMResult :=
  llmLoopGo oracle chunks1 chunks2 (max chunks1.length chunks2.length) 0 [] []

/-- The summary dictionary of `_calculate_summary`. -/
structure LLMSummary where
  added_chars : Nat
  deleted_chars : Nat
  modified_blocks : Nat
  modified_chars : Nat
deriving DecidableEq, Repr

/-- The word-level net added/deleted character counts of a `modified` block
(`_calculate_summary` lines 410-431). -/
def modWordNet (text1 text2 : Str) : Nat × Nat :=
  let words1 := wordTokens text1
  let words2 := wordTokens text2
  (getOpcodes words1 words2).foldl (fun acc op =>
    match op.tag with
    | .insert => (acc.1 + (segB words2 op).length, acc.2)
    | .delete => (acc.1, acc.2 + (segA words1 op).length)
    | .replace => (acc.1 + (segB words2 op).length, acc.2 + (segA words1 op).length)
    | .equal => acc) (0, 0)

/-- `GroqPDFComparator._calculate_summary` (lines 384-438) as a pure
function of the final block list. -/
def calcSummary (blocks : List ChangeBlock) : LLMSummary :=
  if blocks = [] then ⟨0, 0, 0, 0⟩
  else blocks.foldl (fun s blk =>
    match blk.status with
    | .added => ⟨s.added_chars + blk.text2.length, s.deleted_chars,
        s.modified_blocks, s.modified_chars⟩
    | .deleted => ⟨s.added_chars, s.deleted_chars + blk.text1.length,
        s.modified_blocks, s.modified_chars⟩
    | .modified =>
      let net := modWordNet blk.text1 blk.text2
      ⟨s.added_chars + net.1, s.deleted_chars + net.2,
        s.modified_blocks + 1, s.modified_chars + blk.text2.length⟩
    | .equal => s) ⟨0, 0, 0, 0⟩

theorem llmLoopGo_abort (oracle : Str → Str → Except String (List RawBlock))
    (chunks1 chunks2 : List Str) :
    ∀ (rem i : Nat) (acc : List ChangeBlock) (calls : List Nat),
      (∀ k ∈ calls, k < i) →
      ∀ j e, j ∈ (llmLoopGo oracle chunks1 chunks2 rem i acc calls).calls →
        j ∉ calls →
        callGroqChangeBlocks (oracle (chunks1.getD j []) (chunks2.getD j [])) =
          .error e →
        (llmLoopGo oracle chunks1 chunks2 rem i acc calls).success = false ∧
        (llmLoopGo oracle chunks1 chunks2 rem i acc calls).returned = false ∧
        (llmLoopGo oracle chunks1 chunks2 rem i acc calls).errorMessage.isSome ∧
        ∀ k ∈ (llmLoopGo oracle chunks1 chunks2 rem i acc calls).calls, k ≤ j := by
  intro rem
  induction rem with
  | zero =>
    intro i acc calls _ j e hj hnotin _
    exact absurd hj hnotin
  | succ rem ih =>
    intro i acc calls hlt j e hj hnotin herr
    rw [llmLoopGo] at hj ⊢
    by_cases c1 : pyStrip (chunks1.getD i []) = [] ∧ pyStrip (chunks2.getD i []) = []
    · rw [if_pos c1] at hj ⊢
      exact ih (i + 1) acc calls (fun k hk => by have := hlt k hk; omega) j e hj hnotin herr
    · rw [if_neg c1] at hj ⊢
      by_cases c2 : pyStrip (chunks1.getD i []) = [] ∧ pyStrip (chunks2.getD i []) ≠ []
      · rw [if_pos c2] at hj ⊢
        exact ih (i + 1) _ calls (fun k hk => by have := hlt k hk; omega) j e hj hnotin herr
      · rw [if_neg c2] at hj ⊢
        by_cases c3 : pyStrip (chunks1.getD i []) ≠ [] ∧ pyStrip (chunks2.getD i []) = []
        · rw [if_pos c3] at hj ⊢
          exact ih (i + 1) _ calls (fun k hk => by have := hlt k hk; omega) j e hj hnotin herr
        · rw [if_neg c3] at hj ⊢
          by_cases c4 : chunks1.getD i [] = chunks2.getD i []
          · rw [if_pos c4] at hj ⊢
            exact ih (i + 1) _ calls (fun k hk => by have := hlt k hk; omega) j e hj hnotin herr
          · rw [if_neg c4] at hj ⊢
            cases hcall : callGroqChangeBlocks
                (oracle (chunks1.getD i []) (chunks2.getD i [])) with
            | error e' =>
              rw [hcall] at hj
              dsimp only at hj
              have hji : j = i := by
                rcases List.mem_append.mp hj with h | h
                · exact absurd h hnotin
                · exact List.mem_singleton.mp h
              subst hji
              refine ⟨rfl, rfl, rfl, ?_⟩
              intro k hk
              dsimp only at hk
              rcases List.mem_append.mp hk with h | h
              · have := hlt k h; omega
              · rw [List.mem_singleton.mp h]
            | ok bs =>
              rw [hcall] at hj
              dsimp only at hj
              by_cases hji : j = i
              · subst hji
                rw [herr] at hcall
                exact absurd hcall (by simp)
              · have hnotin2 : j ∉ calls ++ [i] := by
                  intro hmem
                  rcases List.mem_append.mp hmem with h | h
                  · exact hnotin h
                  · exact hji (List.mem_singleton.mp h)
                exact ih (i + 1) (acc ++ bs) (calls ++ [i]) (fun k hk => by
                  rcases List.mem_append.mp hk with h | h
                  · have := hlt k h; omega
                  · rw [List.mem_singleton.mp h]; omega) j e hj hnotin2 herr

theorem llmLoopGo_self_calls (oracle : Str → Str → Except String (List RawBlock))
    (chunks : List Str) :
    ∀ (rem i : Nat) (acc : List ChangeBlock) (calls : List Nat),
      (llmLoopGo oracle chunks chunks rem i acc calls).calls = calls := by
  intro rem
  induction rem with
  | zero => intro i acc calls; rfl
  | succ rem ih =>
    intro i acc calls
    rw [llmLoopGo]
    by_cases c1 : pyStrip (chunks.getD i []) = [] ∧ pyStrip (chunks.getD i []) = []
    · rw [if_pos c1]
      exact ih (i + 1) acc calls
    · rw [if_neg c1, if_neg (fun h => h.2 h.1), if_neg (fun h => h.1 h.2),
        if_pos rfl]
      exact ih (i + 1) _ calls

/-- The finalization region of `GroqPDFComparator.compare` (lines 549-560):
`_calculate_summary` plus `_render_change_blocks_html`, whose possible
exception is the argument's `Except.error`: success sets
`success = True` and returns `True`, an exception sets `success = False`,
a non-null message, and returns `False`. -/
def finalizeResult (fin : List ChangeBlock → Except String Unit)
    (r : LLMResult) : LLMResult :=
  match fin r.blocks with
  | .ok _ => ⟨true, true, none, r.blocks, r.calls⟩
  | .error fe =>
    ⟨false, false, some ("Error during result finalization: " ++ fe),
      r.blocks, r.calls⟩

/-- `GroqPDFComparator.compare` (lines 441-567) end to end: the two
extractions are the `Except` arguments (a non-null extractor error returns
`False` with a message, lines 464-476); identical raw texts and
blank-blank texts succeed early (lines 480-489); chunking is the real
`_chunk_text_by_tokens` at the `max(max_chunk_tokens, 500)` budget floored
by `__init__`; an empty pair of chunk lists succeeds early (lines 501-504);
otherwise the reconciliation loop runs, an abort being returned as-is
(lines 539-542), and a completed loop is finalized (lines 549-560). -/
def groqCompare (ex1 ex2 : Except String Str) (tok : Tokenizer)
    (maxTok : Nat) (oracle : Str → Str → Except String (List RawBlock))
    (fin : List ChangeBlock → Except String Unit) : LLMResult :=
  match ex1 with
  | .error e1 => ⟨false, false, some ("Error in Document 1: " ++ e1), [], []⟩
  | .ok t1 =>
    match ex2 with
    | .error e2 => ⟨false, false, some ("Error in Document 2: " ++ e2), [], []⟩
    | .ok t2 =>
      if t1 = t2 then ⟨true, true, none, [], []⟩
      else if pyStrip t1 = [] ∧ pyStrip t2 = [] then ⟨true, true, none, [], []⟩
      else
        let chunks1 := chunkTextByTokens tok (effectiveChunkBudget maxTok) t1
        let chunks2 := chunkTextByTokens tok (effectiveChunkBudget maxTok) t2
        if chunks1 = [] ∧ chunks2 = [] then ⟨true, true, none, [], []⟩
        else
          let r := llmCompareChunks oracle chunks1 chunks2
          if r.success then finalizeResult fin r else r

/-- C2: if the oracle call fails on some chunk pair `i` with any oracle
error kind (every failing branch of `_call_groq_change_blocks` — rate
limit, bad request, API error, invalid JSON, failed validation — sets
`error_message` and returns `None`, here `Except.error`), reconciliation
aborts immediately: no oracle call is issued for any chunk pair after `i`,
and `GroqPDFComparator.compare` — modelled end to end by `groqCompare` —
returns exactly the loop's abort result: the returned boolean is `False`,
`success = False`, `error_message` is non-null, and the partial block list
is never reported as a successful result (finalization never runs). -/
theorem llmCompare_abort_on_oracle_error
    (t1 t2 : Str) (tok : Tokenizer) (maxTok : Nat)
    (oracle : Str → Str → Except String (List RawBlock))
    (fin : List ChangeBlock → Except String Unit) (i : Nat) (e : String)
    (hblank : ¬ (pyStrip t1 = [] ∧ pyStrip t2 = []))
    (hchunks : ¬ (chunkTextByTokens tok (effectiveChunkBudget maxTok) t1 = [] ∧
      chunkTextByTokens tok (effectiveChunkBudget maxTok) t2 = []))
    (hi : i ∈ (llmCompareChunks oracle
      (chunkTextByTokens tok (effectiveChunkBudget maxTok) t1)
      (chunkTextByTokens tok (effectiveChunkBudget maxTok) t2)).calls)
    (he : callGroqChangeBlocks (oracle
      ((chunkTextByTokens tok (effectiveChunkBudget maxTok) t1).getD i [])
      ((chunkTextByTokens tok (effectiveChunkBudget maxTok) t2).getD i []))
      = .error e) :
    (llmCompareChunks oracle
      (chunkTextByTokens tok (effectiveChunkBudget maxTok) t1)
      (chunkTextByTokens tok (effectiveChunkBudget maxTok) t2)).success = false ∧
    (llmCompareChunks oracle
      (chunkTextByTokens tok (effectiveChunkBudget maxTok) t1)
      (chunkTextByTokens tok (effectiveChunkBudget maxTok) t2)).returned = false ∧
    (llmCompareChunks oracle
      (chunkTextByTokens tok (effectiveChunkBudget maxTok) t1)
      (chunkTextByTokens tok (effectiveChunkBudget maxTok) t2)).errorMessage.isSome ∧
    (∀ j ∈ (llmCompareChunks oracle
      (chunkTextByTokens tok (effectiveChunkBudget maxTok) t1)
      (chunkTextByTokens tok (effectiveChunkBudget maxTok) t2)).calls, j ≤ i) ∧
    groqCompare (.ok t1) (.ok t2) tok maxTok oracle fin =
      llmCompareChunks oracle
        (chunkTextByTokens tok (effectiveChunkBudget maxTok) t1)
        (chunkTextByTokens tok (effectiveChunkBudget maxTok) t2) := by
  have habort := llmLoopGo_abort oracle
    (chunkTextByTokens tok (effectiveChunkBudget maxTok) t1)
    (chunkTextByTokens tok (effectiveChunkBudget maxTok) t2)
    (max (chunkTextByTokens tok (effectiveChunkBudget maxTok) t1).length
      (chunkTextByTokens tok (effectiveChunkBudget maxTok) t2).length)
    0 [] [] (fun k hk => absurd hk (List.not_mem_nil k)) i e hi
    (List.not_mem_nil i) he
  have hneq : t1 ≠ t2 := by
    intro h
    subst h
    rw [llmCompareChunks, llmLoopGo_self_calls] at hi
    exact absurd hi (List.not_mem_nil i)
  refine ⟨habort.1, habort.2.1, habort.2.2.1, habort.2.2.2, ?_⟩
  show (if t1 = t2 then (⟨true, true, none, [], []⟩ : LLMResult)
    else if pyStrip t1 = [] ∧ pyStrip t2 = [] then ⟨true, true, none, [], []⟩
    else if chunkTextByTokens tok (effectiveChunkBudget maxTok) t1 = [] ∧
        chunkTextByTokens tok (effectiveChunkBudget maxTok) t2 = [] then
      ⟨true, true, none, [], []⟩
    else if (llmCompareChunks oracle
        (chunkTextByTokens tok (effectiveChunkBudget maxTok) t1)
        (chunkTextByTokens tok (effectiveChunkBudget maxTok) t2)).success then
      finalizeResult fin (llmCompareChunks oracle
        (chunkTextByTokens tok (effectiveChunkBudget maxTok) t1)
        (chunkTextByTokens tok (effectiveChunkBudget maxTok) t2))
    else llmCompareChunks oracle
      (chunkTextByTokens tok (effectiveChunkBudget maxTok) t1)
      (chunkTextByTokens tok (effectiveChunkBudget maxTok) t2)) =
    llmCompareChunks oracle
      (chunkTextByTokens tok (effectiveChunkBudget maxTok) t1)
      (chunkTextByTokens tok (effectiveChunkBudget maxTok) t2)
  rw [if_neg hneq, if_neg hblank, if_neg hchunks,
    if_neg (by
      have hs : (llmCompareChunks oracle
          (chunkTextByTokens tok (effectiveChunkBudget maxTok) t1)
          (chunkTextByTokens tok (effectiveChunkBudget maxTok) t2)).success =
          false := habort.1
      rw [hs]
      exact Bool.false_ne_true)]

/-- Witness for `llmCompare_abort_on_oracle_error`: with the concrete
tokenizer `xTok`, raw texts `"x"` and `"xx"` chunk to `["x"]` and `["xx"]`;
an oracle that fails with a rate-limit error is called once, on pair 0, and
the whole comparison returns that abort result. -/
theorem llmCompare_abort_on_oracle_error_witness :
    (llmCompareChunks (fun _ _ => Except.error "API Rate Limit Error")
      (chunkTextByTokens xTok (effectiveChunkBudget 500) "x".data)
      (chunkTextByTokens xTok (effectiveChunkBudget 500) "xx".data)).success
        = false ∧
    (llmCompareChunks (fun _ _ => Except.error "API Rate Limit Error")
      (chunkTextByTokens xTok (effectiveChunkBudget 500) "x".data)
      (chunkTextByTokens xTok (effectiveChunkBudget 500) "xx".data)).returned
        = false ∧
    (llmCompareChunks (fun _ _ => Except.error "API Rate Limit Error")
      (chunkTextByTokens xTok (effectiveChunkBudget 500) "x".data)
      (chunkTextByTokens xTok
        (effectiveChunkBudget 500) "xx".data)).errorMessage.isSome ∧
    (∀ j ∈ (llmCompareChunks (fun _ _ => Except.error "API Rate Limit Error")
      (chunkTextByTokens xTok (effectiveChunkBudget 500) "x".data)
      (chunkTextByTokens xTok (effectiveChunkBudget 500) "xx".data)).calls,
        j ≤ 0) ∧
    groqCompare (.ok "x".data) (.ok "xx".data) xTok 500
        (fun _ _ => Except.error "API Rate Limit Error") (fun _ => .ok ()) =
      llmCompareChunks (fun _ _ => Except.error "API Rate Limit Error")
        (chunkTextByTokens xTok (effectiveChunkBudget 500) "x".data)
        (chunkTextByTokens xTok (effectiveChunkBudget 500) "xx".data) :=
  llmCompare_abort_on_oracle_error "x".data "xx".data xTok 500
    (fun _ _ => Except.error "API Rate Limit Error") (fun _ => .ok ())
    0 "API Rate Limit Error" (by decide) (by decide) (by decide) rfl

theorem llmLoopGo_calls_only_ambiguous
    (oracle : Str → Str → Except String (List RawBlock))
    (chunks1 chunks2 : List Str) :
    ∀ (rem i : Nat) (acc : List ChangeBlock) (calls : List Nat),
      (∀ k ∈ calls, ¬ pyStrip (chunks1.getD k []) = [] ∧
        ¬ pyStrip (chunks2.getD k []) = [] ∧
        chunks1.getD k [] ≠ chunks2.getD k []) →
      ∀ j ∈ (llmLoopGo oracle chunks1 chunks2 rem i acc calls).calls,
        ¬ pyStrip (chunks1.getD j []) = [] ∧
        ¬ pyStrip (chunks2.getD j []) = [] ∧
        chunks1.getD j [] ≠ chunks2.getD j [] := by
  intro rem
  induction rem with
  | zero => intro i acc calls hc j hj; exact hc j hj
  | succ rem ih =>
    intro i acc calls hc j hj
    rw [llmLoopGo] at hj
    by_cases c1 : pyStrip (chunks1.getD i []) = [] ∧ pyStrip (chunks2.getD i []) = []
    · rw [if_pos c1] at hj
      exact ih (i + 1) acc calls hc j hj
    · rw [if_neg c1] at hj
      by_cases c2 : pyStrip (chunks1.getD i []) = [] ∧ pyStrip (chunks2.getD i []) ≠ []
      · rw [if_pos c2] at hj
        exact ih (i + 1) _ calls hc j hj
      · rw [if_neg c2] at hj
        by_cases c3 : pyStrip (chunks1.getD i []) ≠ [] ∧ pyStrip (chunks2.getD i []) = []
        · rw [if_pos c3] at hj
          exact ih (i + 1) _ calls hc j hj
        · rw [if_neg c3] at hj
          by_cases c4 : chunks1.getD i [] = chunks2.getD i []
          · rw [if_pos c4] at hj
            exact ih (i + 1) _ calls hc j hj
          · rw [if_neg c4] at hj
            have hhard : ¬ pyStrip (chunks1.getD i []) = [] ∧
                ¬ pyStrip (chunks2.getD i []) = [] ∧
                chunks1.getD i [] ≠ chunks2.getD i [] := by
              constructor
              · intro hb1
                by_cases hb2 : pyStrip (chunks2.getD i []) = []
                · exact c1 ⟨hb1, hb2⟩
                · exact c2 ⟨hb1, hb2⟩
              · constructor
                · intro hb2
                  by_cases hb1 : pyStrip (chunks1.getD i []) = []
                  · exact c1 ⟨hb1, hb2⟩
                  · exact c3 ⟨hb1, hb2⟩
                · exact c4
            have hc2 : ∀ k ∈ calls ++ [i], ¬ pyStrip (chunks1.getD k []) = [] ∧
                ¬ pyStrip (chunks2.getD k []) = [] ∧
                chunks1.getD k [] ≠ chunks2.getD k [] := by
              intro k hk
              rcases List.mem_append.mp hk with h | h
              · exact hc k h
              · rw [List.mem_singleton.mp h]
                exact hhard
            cases hcall : callGroqChangeBlocks
                (oracle (chunks1.getD i []) (chunks2.getD i [])) with
            | error e' =>
              rw [hcall] at hj
              exact hc2 j hj
            | ok bs =>
              rw [hcall] at hj
              exact ih (i + 1) (acc ++ bs) (calls ++ [i]) hc2 j hj

/-- C3: the reconciler classifies locally without calling the oracle when
possible.  For a single chunk pair (indices are handled identically): both
sides blank → no block; A-side blank, B-side non-blank → exactly one
`added` block with `text2 = chunk2`; B-side blank, A-side non-blank →
exactly one `deleted` block with `text1 = chunk1`; textually identical
sides → one `equal` block — in all four cases with no oracle call and a
successful result.  The oracle is only ever called on pairs where no local
rule applies.  In particular `chunks_a = ["X"], chunks_b = []` yields
exactly one `deleted` block with `text1 = "X"`, no oracle call, and
`deleted_chars = 1`. -/
theorem llmCompare_local_classification
    (oracle : Str → Str → Except String (List RawBlock)) :
    (llmCompareChunks oracle ["X".data] [] =
      ⟨true, true, none, [⟨BlockStatus.deleted, "X".data, []⟩], []⟩ ∧
     (calcSummary [⟨BlockStatus.deleted, "X".data, []⟩]).deleted_chars = 1) ∧
    (∀ c1 c2 : Str, pyStrip c1 = [] → pyStrip c2 = [] →
      llmCompareChunks oracle [c1] [c2] = ⟨true, true, none, [], []⟩) ∧
    (∀ c1 c2 : Str, pyStrip c1 = [] → pyStrip c2 ≠ [] →
      llmCompareChunks oracle [c1] [c2] =
        ⟨true, true, none, [⟨BlockStatus.added, [], c2⟩], []⟩) ∧
    (∀ c1 c2 : Str, pyStrip c1 ≠ [] → pyStrip c2 = [] →
      llmCompareChunks oracle [c1] [c2] =
        ⟨true, true, none, [⟨BlockStatus.deleted, c1, []⟩], []⟩) ∧
    (∀ c1 c2 : Str, pyStrip c1 ≠ [] → pyStrip c2 ≠ [] → c1 = c2 →
      llmCompareChunks oracle [c1] [c2] =
        ⟨true, true, none, [⟨BlockStatus.equal, c1, c2⟩], []⟩) ∧
    (∀ chunks1 chunks2 : List Str,
      ∀ i ∈ (llmCompareChunks oracle chunks1 chunks2).calls,
        ¬ pyStrip (chunks1.getD i []) = [] ∧
        ¬ pyStrip (chunks2.getD i []) = [] ∧
        chunks1.getD i [] ≠ chunks2.getD i []) := by
  refine ⟨⟨?_, by decide⟩, ?_, ?_, ?_, ?_, ?_⟩
  · rfl
  · intro c1 c2 h1 h2
    simp [llmCompareChunks, llmLoopGo, List.getD, h1, h2]
  · intro c1 c2 h1 h2
    simp [llmCompareChunks, llmLoopGo, List.getD, h1, h2]
  · intro c1 c2 h1 h2
    simp [llmCompareChunks, llmLoopGo, List.getD, h1, h2]
  · intro c1 c2 h1 h2 h3
    simp [llmCompareChunks, llmLoopGo, List.getD, h1, h2, h3]
  · intro chunks1 chunks2 i hi
    exact llmLoopGo_calls_only_ambiguous oracle chunks1 chunks2
      (max chunks1.length chunks2.length) 0 [] []
      (fun k hk => absurd hk (List.not_mem_nil k)) i hi

/-- Witness for `llmCompare_local_classification`: scenario 5 with a
concrete oracle, plus a concrete A-side-blank pair producing one added
block with no oracle call. -/
theorem llmCompare_local_classification_witness :
    (llmCompareChunks (fun _ _ => Except.ok ([] : List RawBlock)) ["X".data] [] =
      ⟨true, true, none, [⟨BlockStatus.deleted, "X".data, []⟩], []⟩ ∧
     (calcSummary [⟨BlockStatus.deleted, "X".data, []⟩]).deleted_chars = 1) ∧
    llmCompareChunks (fun _ _ => Except.ok ([] : List RawBlock)) [[]] ["y".data] =
      ⟨true, true, none, [⟨BlockStatus.added, [], "y".data⟩], []⟩ :=
  ⟨(llmCompare_local_classification (fun _ _ => Except.ok [])).1,
   (llmCompare_local_classification (fun _ _ => Except.ok [])).2.2.1 [] "y".data
     rfl (by decide)⟩

/-!
## Text normalizer (`PDFComparator._preprocess_text`) and `compare`
-/

/-- The three lexical comparison options of `PDFComparator.__init__`. -/
structure PreprocessOptions where
  ignore_case : Bool
  ignore_punctuation : Bool
  de_hyphenate : Bool
deriving DecidableEq, Repr

/-- `string.punctuation`. -/
def pyPunct : Str := "!\"#$%&'()*+,-./:;<=>?@[\\]^_`\x7b|\x7d~".data

/-- Membership in `string.punctuation`. -/
def isPunct (c : Char) : Bool := pyPunct.contains c

/-- Scanner for `re.sub(r'-\s*\n\s*', '', text)` (line 64 of
`src/comparator.py`): a match is a `'-'` whose following whitespace run
contains a `'\n'`; the greedy trailing `\s*` consumes the entire run
(`skipping = true` while inside it, and a `'-'` met right after the run is
examined for a new match, as `re.sub` resumes scanning there). -/
def deHyphScan : Bool → Str → Str
  | _, [] => []
  | skipping, c :: rest =>
    if skipping && pySpace c then deHyphScan true rest
    else if c = '-' && (rest.takeWhile pySpace).contains '\n' then deHyphScan true rest
    else c :: deHyphScan false rest

/-- `re.sub(r'-\s*\n\s*', '', text)`. -/
def deHyph (s : Str) : Str := deHyphScan false s

/-- Is `c` one of the ASCII line terminators recognized by
`str.splitlines`? -/
def isLineTerm (c : Char) : Bool :=
  c = '\n' || c = '\r' || c = '\x0b' || c = '\x0c' ||
  c = '\x1c' || c = '\x1d' || c = '\x1e'

/-- Scanner for Python `str.splitlines()` over ASCII text (`\r\n` counts as
one terminator; a trailing terminator produces no extra line). -/
def pySplitlinesGo (acc : Str) : Str → List Str
  | [] => if acc = [] then [] else [acc.reverse]
  | '\r' :: '\n' :: rest => acc.reverse :: pySplitlinesGo [] rest
  | c :: rest =>
    if isLineTerm c then acc.reverse :: pySplitlinesGo [] rest
    else pySplitlinesGo (c :: acc) rest

/-- Python `str.splitlines()`. -/
def pySplitlines (s : Str) : List Str := pySplitlinesGo [] s

/-- Scanner for `re.sub(r'\s+', ' ', text)`: every maximal whitespace run
becomes a single space; `pending` records an open run. -/
def collapseWsGo (pending : Bool) : Str → Str
  | [] => if pending then [' '] else []
  | c :: rest =>
    if pySpace c then collapseWsGo true rest
    else (if pending then [' '] else []) ++ c :: collapseWsGo false rest

/-- `re.sub(r'\s+', ' ', text)`. -/
def collapseWs (s : Str) : Str := collapseWsGo false s

/-- `PDFComparator._apply_preprocessing_options` (lines 44-52): lowercase if
`ignore_case` (ASCII model of `str.lower`), strip punctuation if
`ignore_punctuation`, collapse whitespace runs to single spaces, strip. -/
def applyPreprocessingOptions (opts : PreprocessOptions) (text : Str) : Str :=
  let t1 := if opts.ignore_case then text.map Char.toLower else text
  let t2 := if opts.ignore_punctuation then t1.filter (fun c => !isPunct c) else t1
  pyStrip (collapseWs t2)

/-- `PDFComparator._preprocess_text` (lines 54-74): de-hyphenate if enabled,
split into lines, apply per-line options, drop lines that become empty. -/
def preprocessText (opts : PreprocessOptions) (raw : Str) : List Str :=
  let processed := if opts.de_hyphenate then deHyph raw else raw
  ((pySplitlines processed).map (applyPreprocessingOptions opts)).filter (· ≠ [])

/-- `"\n".join(lines)`. -/
def joinNl (lines : List Str) : Str := joinSep ['\n'] lines

/-- The observable outcome of the fallible region of `PDFComparator.compare`
(preprocessing and diff generation, lines 214-232). -/
structure BasicOutcome where
  isIdentical : Bool
  diffHtml : Option Str
  summary : LexSummary
deriving DecidableEq, Repr

/-- The result record of `PDFComparator.compare`: `returned` is the boolean
the method returns, the other fields are the instance attributes it sets. -/
structure BasicResult where
  returned : Bool
  success : Bool
  errorMessage : Option String
  isIdentical : Bool
  isIdenticalRaw : Bool
  diffHtml : Option Str
  summary : LexSummary
deriving DecidableEq, Repr

/-- The preprocessing-and-diff region of `PDFComparator.compare`
(lines 214-232) when no exception occurs: preprocess both texts, take the
identical fast path, or generate the diff and summary. -/
def realBody (opts : PreprocessOptions) (t1 t2 : Str) : Except String BasicOutcome :=
  let lines1 := preprocessText opts t1
  let lines2 := preprocessText opts t2
  if lines1 = lines2 then .ok ⟨true, none, ⟨0, 0, 0⟩⟩
  else
    let r := generateDiffHtmlWithWordLevel lines1 lines2
    .ok ⟨false, some r.1, r.2⟩

/-- `PDFComparator.compare` (lines 182-241).  Extraction is supplied as the
`(text, error)` pairs of the external extractor; the fallible region after
extraction is supplied as `body` (its honest instance is `realBody`; an
`Except.error` models a Python exception raised during preprocessing or
diff generation, which the method catches at line 237 — note it then
returns `True`). -/
def pdfCompare (opts : PreprocessOptions)
    (ext1 ext2 : Option Str × Option String)
    (body : Str → Str → Except String BasicOutcome) : BasicResult :=
  match ext1.2 with
  | some e =>
    ⟨false, false, some ("Error in Document 1: " ++ e), false, false, none, ⟨0, 0, 0⟩⟩
  | none =>
  match ext2.2 with
  | some e =>
    ⟨false, false, some ("Error in Document 2: " ++ e), false, false, none, ⟨0, 0, 0⟩⟩
  | none =>
  match ext1.1, ext2.1 with
  | some t1, some t2 =>
    let rawPossible := !(opts.ignore_case || opts.ignore_punctuation || opts.de_hyphenate)
    if rawPossible ∧ t1 = t2 then
      ⟨true, true, none, true, true, none, ⟨0, 0, 0⟩⟩
    else
      match body t1 t2 with
      | .error e =>
        ⟨true, false, some ("Unexpected error during basic comparison: " ++ e),
          false, false, none, ⟨0, 0, 0⟩⟩
      | .ok out =>
        if out.isIdentical then ⟨true, true, none, true, false, none, ⟨0, 0, 0⟩⟩
        else ⟨true, true, none, false, false, out.diffHtml, out.summary⟩
  | _, _ =>
    ⟨false, false, some "Text extraction failed unexpectedly.", false, false, none,
      ⟨0, 0, 0⟩⟩

/-- C10: the boolean returned by `PDFComparator.compare` does not indicate
success.  Extraction failures return `False` (with `success = False`), but
an exception raised after extraction (during preprocessing or diff
generation) is caught, sets `success = False` and a non-null
`error_message`, and the method still returns `True` — callers must inspect
`success`, not the return value. -/
theorem pdfCompare_return_not_success :
    (∀ (opts : PreprocessOptions) (x : Option Str)
        (ext2 : Option Str × Option String) (body) (e : String),
      (pdfCompare opts (x, some e) ext2 body).returned = false ∧
      (pdfCompare opts (x, some e) ext2 body).success = false ∧
      (pdfCompare opts (x, some e) ext2 body).errorMessage.isSome) ∧
    (∀ (opts : PreprocessOptions) (x y : Option Str) (body) (e : String),
      (pdfCompare opts (x, none) (y, some e) body).returned = false ∧
      (pdfCompare opts (x, none) (y, some e) body).success = false ∧
      (pdfCompare opts (x, none) (y, some e) body).errorMessage.isSome) ∧
    (∀ (opts : PreprocessOptions) (t1 t2 : Str) (body) (e : String),
      body t1 t2 = .error e →
      ¬ ((!(opts.ignore_case || opts.ignore_punctuation || opts.de_hyphenate)) ∧
          t1 = t2) →
      (pdfCompare opts (some t1, none) (some t2, none) body).returned = true ∧
      (pdfCompare opts (some t1, none) (some t2, none) body).success = false ∧
      (pdfCompare opts (some t1, none) (some t2, none) body).errorMessage.isSome) := by
  refine ⟨?_, ?_, ?_⟩
  · intro opts x ext2 body e
    exact ⟨rfl, rfl, rfl⟩
  · intro opts x y body e
    exact ⟨rfl, rfl, rfl⟩
  · intro opts t1 t2 body e hbody hfast
    rw [pdfCompare]
    simp only [if_neg hfast]
    rw [hbody]
    exact ⟨rfl, rfl, rfl⟩

/-- Witness for `pdfCompare_return_not_success`: with differing texts and an
exception-raising body, `compare` returns `True` while `success = False`. -/
theorem pdfCompare_return_not_success_witness :
    (pdfCompare ⟨false, false, false⟩ (some "a".data, none) (some "b".data, none)
      (fun _ _ => Except.error "boom")).returned = true ∧
    (pdfCompare ⟨false, false, false⟩ (some "a".data, none) (some "b".data, none)
      (fun _ _ => Except.error "boom")).success = false ∧
    (pdfCompare ⟨false, false, false⟩ (some "a".data, none) (some "b".data, none)
      (fun _ _ => Except.error "boom")).errorMessage.isSome :=
  pdfCompare_return_not_success.2.2 ⟨false, false, false⟩ "a".data "b".data
    (fun _ _ => Except.error "boom") "boom" rfl (by decide)

theorem formatLinks_of_no_match (line : Str) (h : urlFinditer line = []) :
    formatLinks line = htmlEscape line := by
  rw [formatLinks, h, formatLinksParts, List.drop_zero]
  rfl

theorem formatLinksParts_shape (line : Str) :
    ∀ (ms : List (Nat × Nat)) (lastEnd : Nat),
      (∀ m ∈ ms, m ∈ urlFinditer line) →
      ∀ part ∈ formatLinksParts line ms lastEnd,
        (∃ i n, part = htmlEscape (sliceL line i n)) ∨
        (∃ s e, (s, e) ∈ urlFinditer line ∧
          part = anchorHtml (htmlEscape (hrefFor (sliceL line s (e - s))))
            (htmlEscape (sliceL line s (e - s)))) := by
  intro ms
  induction ms with
  | nil =>
    intro lastEnd _ part hpart
    rw [formatLinksParts] at hpart
    rcases List.mem_singleton.mp hpart with h
    left
    exact ⟨lastEnd, line.length - lastEnd, by
      rw [h]
      congr 1
      simp [sliceL, List.take_of_length_le, List.length_drop]⟩
  | cons m ms ih =>
    intro lastEnd hms part hpart
    obtain ⟨s, e⟩ := m
    rw [formatLinksParts] at hpart
    rcases List.mem_cons.mp hpart with h | hpart2
    · left
      exact ⟨lastEnd, s - lastEnd, h⟩
    · rcases List.mem_cons.mp hpart2 with h | hpart3
      · right
        exact ⟨s, e, hms (s, e) (List.mem_cons_self _ _), h⟩
      · exact ih e (fun x hx => hms x (List.mem_cons_of_mem _ hx)) part hpart3

theorem isPrefixOf_exists {l t : List Char} (h : l.isPrefixOf t) :
    ∃ u, t = l ++ u := by
  rcases (List.isPrefixOf_iff_prefix.mp h) with ⟨u, hu⟩
  exact ⟨u, hu.symm⟩

/-- C8: every rendered fragment of `_format_links` is escape-then-wrap —
each non-URL part is the `html.escape` of a fragment of the input and each
URL part is an anchor whose href and display text are escaped before the
tag is assembled (so injected markup never survives unescaped); when no
URL-like substring matches, the output is exactly the escaped input; and a
bare `www.` match gets an `http://` scheme synthesized in its href. -/
theorem formatLinks_escape_then_wrap (line : Str) :
    (urlFinditer line = [] → formatLinks line = htmlEscape line) ∧
    (∀ part ∈ formatLinksParts line (urlFinditer line) 0,
      (∃ i n, part = htmlEscape (sliceL line i n)) ∨
      (∃ s e, (s, e) ∈ urlFinditer line ∧
        part = anchorHtml (htmlEscape (hrefFor (sliceL line s (e - s))))
          (htmlEscape (sliceL line s (e - s))))) ∧
    (∀ u : Str, "www.".data.isPrefixOf u → hrefFor u = "http://".data ++ u) := by
  refine ⟨formatLinks_of_no_match line, ?_, ?_⟩
  · exact formatLinksParts_shape line (urlFinditer line) 0 (fun m hm => hm)
  · intro u hwww
    obtain ⟨v, hv⟩ := isPrefixOf_exists hwww
    subst hv
    rw [hrefFor]
    have h1 : ("http://".data.isPrefixOf ("www.".data ++ v)) = false := by
      rfl
    have h2 : ("https://".data.isPrefixOf ("www.".data ++ v)) = false := by
      rfl
    have h3 : ("ftp://".data.isPrefixOf ("www.".data ++ v)) = false := by
      rfl
    have hc : ("www.".data.isPrefixOf ("www.".data ++ v) &&
        !("http://".data.isPrefixOf ("www.".data ++ v) ||
          "https://".data.isPrefixOf ("www.".data ++ v) ||
          "ftp://".data.isPrefixOf ("www.".data ++ v))) = true := by
      rw [hwww, h1, h2, h3]
      rfl
    rw [if_pos hc]

/-- Witness for `formatLinks_escape_then_wrap`: a line with no URL is
exactly escaped, and a bare `www.` URL gets an `http://` href. -/
theorem formatLinks_escape_then_wrap_witness :
    formatLinks "a b".data = htmlEscape "a b".data ∧
    hrefFor "www.ab".data = "http://".data ++ "www.ab".data :=
  ⟨(formatLinks_escape_then_wrap "a b".data).1 (by decide),
   (formatLinks_escape_then_wrap "www.ab".data).2.2 "www.ab".data (by decide)⟩

theorem htmlEscape_append (a b : Str) :
    htmlEscape (a ++ b) = htmlEscape a ++ htmlEscape b := by
  simp [htmlEscape]

theorem escChar_infix_of_mem {c : Char} {s : Str} (h : c ∈ s) :
    escChar c <:+: htmlEscape s := by
  induction s with
  | nil => exact absurd h (List.not_mem_nil c)
  | cons d t ih =>
    rcases List.mem_cons.mp h with hd | ht
    · subst hd
      exact ⟨[], htmlEscape t, by simp [htmlEscape]⟩
    · obtain ⟨x, y, hxy⟩ := ih ht
      exact ⟨escChar d ++ x, y, by
        have : htmlEscape (d :: t) = escChar d ++ htmlEscape t := by
          simp [htmlEscape]
        rw [this, ← hxy]
        simp [List.append_assoc]⟩

theorem infix_htmlEscape {u s : Str} (h : u <:+: s) :
    htmlEscape u <:+: htmlEscape s := by
  obtain ⟨x, y, hxy⟩ := h
  exact ⟨htmlEscape x, htmlEscape y, by
    rw [← htmlEscape_append, ← htmlEscape_append, hxy]⟩

theorem infix_wrap {u s : Str} (h : u <:+: s) (p q : Str) :
    u <:+: (p ++ s ++ q) := by
  obtain ⟨x, y, hxy⟩ := h
  exact ⟨p ++ x, y ++ q, by
    rw [← hxy]
    simp [List.append_assoc]⟩

/-- C9: every line emitted on the equal/insert/delete paths and the
single-sided lines of a replace is escaped twice — once by `html.escape`
and once more inside `_format_links` — so when the line contains `'&'` (and
its escaped form has no URL match, i.e. on the non-URL portion) the
rendered diff line contains the doubly-escaped form `&amp;amp;`. -/
theorem diffLine_doubly_escaped (line cls marker : Str)
    (hamp : '&' ∈ line) (hnoUrl : urlFinditer (htmlEscape line) = []) :
    "&amp;amp;".data <:+: diffLineHtml cls marker (escapeLinkLine line) := by
  have hlink : escapeLinkLine line = htmlEscape (htmlEscape line) :=
    formatLinks_of_no_match (htmlEscape line) hnoUrl
  have h1 : "&amp;".data <:+: htmlEscape line := by
    have := escChar_infix_of_mem hamp
    simpa [escChar] using this
  have h2 : htmlEscape "&amp;".data <:+: htmlEscape (htmlEscape line) :=
    infix_htmlEscape h1
  have h3 : htmlEscape "&amp;".data = "&amp;amp;".data := rfl
  rw [h3, ← hlink] at h2
  rw [diffLineHtml]
  have := infix_wrap h2
    ("<span class='diff-line ".data ++ cls ++ "'><span class='diff-marker'>".data ++
      marker ++ "</span>".data) "</span>".data
  simpa [List.append_assoc] using this

/-- Witness for `diffLine_doubly_escaped`: the rendered equal-path line for
`"a&b"` contains `&amp;amp;`. -/
theorem diffLine_doubly_escaped_witness :
    "&amp;amp;".data <:+:
      diffLineHtml "diff-equal".data " ".data (escapeLinkLine "a&b".data) :=
  diffLine_doubly_escaped "a&b".data "diff-equal".data " ".data
    (by decide) (by decide)

/-!
## Normalizer idempotence (and its limits)
-/

theorem toNat_ofNat_valid {n : Nat} (h : n.isValidChar) :
    (Char.ofNat n).toNat = n := by
  rw [Char.ofNat, dif_pos h]
  rfl

theorem char_eq_iff_toNat {c d : Char} : c = d ↔ c.toNat = d.toNat := by
  constructor
  · intro h; rw [h]
  · intro h
    have := congrArg Char.ofNat h
    rwa [Char.ofNat_toNat, Char.ofNat_toNat] at this

theorem toLower_toNat (c : Char) : (Char.toLower c).toNat =
    if 65 ≤ c.toNat ∧ c.toNat ≤ 90 then c.toNat + 32 else c.toNat := by
  rw [Char.toLower]
  by_cases h : c.toNat ≥ 65 ∧ c.toNat ≤ 90
  · rw [if_pos h, if_pos ⟨h.1, h.2⟩]
    apply toNat_ofNat_valid
    left
    omega
  · rw [if_neg h, if_neg (by omega)]

theorem toLower_cases (c : Char) :
    Char.toLower c = c ∨
      (97 ≤ (Char.toLower c).toNat ∧ (Char.toLower c).toNat ≤ 122) := by
  by_cases h : 65 ≤ c.toNat ∧ c.toNat ≤ 90
  · right
    rw [toLower_toNat, if_pos h]
    omega
  · left
    rw [char_eq_iff_toNat, toLower_toNat, if_neg h]

theorem toLower_idem (c : Char) :
    Char.toLower (Char.toLower c) = Char.toLower c := by
  rcases toLower_cases c with h | h
  · rw [h, h]
  · rw [char_eq_iff_toNat, toLower_toNat, if_neg (by omega)]

theorem pySpace_false_of_lower (c : Char) (h9 : 97 ≤ c.toNat)
    (h2 : c.toNat ≤ 122) : pySpace c = false := by
  simp only [pySpace, Bool.or_eq_false_iff, decide_eq_false_iff_not]
  refine ⟨⟨⟨⟨⟨?_, ?_⟩, ?_⟩, ?_⟩, ?_⟩, ?_⟩ <;>
    (intro h; rw [h] at h9; exact absurd h9 (by decide))

theorem isLineTerm_false_of_lower (c : Char) (h9 : 97 ≤ c.toNat)
    (h2 : c.toNat ≤ 122) : isLineTerm c = false := by
  simp only [isLineTerm, Bool.or_eq_false_iff, decide_eq_false_iff_not]
  refine ⟨⟨⟨⟨⟨⟨?_, ?_⟩, ?_⟩, ?_⟩, ?_⟩, ?_⟩, ?_⟩ <;>
    (intro h; rw [h] at h9; exact absurd h9 (by decide))

theorem pySpace_toLower (c : Char) : pySpace (Char.toLower c) = pySpace c := by
  by_cases h : 65 ≤ c.toNat ∧ c.toNat ≤ 90
  · have h1 : (Char.toLower c).toNat = c.toNat + 32 := by
      rw [toLower_toNat, if_pos h]
    have hA : pySpace (Char.toLower c) = false :=
      pySpace_false_of_lower _ (by omega) (by omega)
    have hB : pySpace c = false := by
      simp only [pySpace, Bool.or_eq_false_iff, decide_eq_false_iff_not]
      refine ⟨⟨⟨⟨⟨?_, ?_⟩, ?_⟩, ?_⟩, ?_⟩, ?_⟩ <;>
        (intro hc; rw [hc] at h; revert h; decide)
    rw [hA, hB]
  · have h1 : Char.toLower c = c := by
      rw [char_eq_iff_toNat, toLower_toNat, if_neg h]
    rw [h1]

theorem isLineTerm_toLower {c : Char} (h : isLineTerm (Char.toLower c) = true) :
    isLineTerm c = true := by
  rcases toLower_cases c with h1 | h1
  · rwa [h1] at h
  · rw [isLineTerm_false_of_lower _ h1.1 h1.2] at h
    exact absurd h (by simp)

theorem toLower_eq_hyphen {c : Char} (h : Char.toLower c = '-') : c = '-' := by
  rcases toLower_cases c with h1 | h1
  · rwa [h1] at h
  · rw [h] at h1
    exact absurd h1.1 (by decide)

theorem toNat_bound_of_isPunct {c : Char} (h : isPunct c = true) :
    c.toNat < 97 ∨ 122 < c.toNat := by
  have hl : pyPunct = ['!', '"', '#', '$', '%', '&', '\'', '(', ')', '*',
      '+', ',', '-', '.', '/', ':', ';', '<', '=', '>', '?', '@', '[', '\\',
      ']', '^', '_', '`', '\x7b', '|', '\x7d', '~'] := rfl
  rw [isPunct, hl] at h
  have h2 := List.mem_of_elem_eq_true h
  simp only [List.mem_cons, List.not_mem_nil, or_false] at h2
  rcases h2 with rfl|rfl|rfl|rfl|rfl|rfl|rfl|rfl|rfl|rfl|rfl|rfl|rfl|rfl|rfl|
    rfl|rfl|rfl|rfl|rfl|rfl|rfl|rfl|rfl|rfl|rfl|rfl|rfl|rfl|rfl|rfl|rfl <;>
    decide

/-- Does the string start with a non-whitespace character? -/
def headNonWs : Str → Bool
  | [] => false
  | d :: _ => !(pySpace d)

/-- Is the string empty or starting with a non-whitespace character? -/
def noLeadWs : Str → Bool
  | [] => true
  | d :: _ => !(pySpace d)

/-- Interior shape of a fully normalized line: every whitespace character is
a single `' '` immediately followed by a non-whitespace character. -/
def tidyRun : Str → Bool
  | [] => true
  | c :: rest =>
    if pySpace c then (c = ' ') && headNonWs rest && tidyRun rest
    else tidyRun rest

/-- A fully normalized line: no leading whitespace and `tidyRun`. -/
def tidy (s : Str) : Bool := noLeadWs s && tidyRun s

theorem tidyRun_tail {c : Char} {t : Str} (h : tidyRun (c :: t) = true) :
    tidyRun t = true := by
  rw [tidyRun] at h
  by_cases hc : pySpace c = true
  · rw [if_pos hc] at h
    simp only [Bool.and_eq_true] at h
    exact h.2
  · rwa [if_neg hc] at h

/-- Removing trailing whitespace; `pyStrip` is `dropEnd` after a leading
`dropWhile`. -/
def dropEnd (s : Str) : Str := (s.reverse.dropWhile pySpace).reverse

theorem pyStrip_eq_dropEnd (s : Str) :
    pyStrip s = dropEnd (s.dropWhile pySpace) := rfl

theorem dropEnd_cons (c : Char) (t : Str) :
    dropEnd (c :: t) =
      if dropEnd t = [] then (if pySpace c then [] else [c])
      else c :: dropEnd t := by
  by_cases h : t.reverse.dropWhile pySpace = []
  · have h1 : dropEnd t = [] := by rw [dropEnd, h]; rfl
    rw [if_pos h1, dropEnd, List.reverse_cons, List.dropWhile_append]
    have h2 : (t.reverse.dropWhile pySpace).isEmpty = true := by rw [h]; rfl
    rw [if_pos h2]
    cases hc : pySpace c <;> simp [List.dropWhile, hc]
  · have h1 : dropEnd t ≠ [] := by
      rw [dropEnd]
      simpa using h
    rw [if_neg h1, dropEnd, List.reverse_cons, List.dropWhile_append]
    have h2 : (t.reverse.dropWhile pySpace).isEmpty = false := by
      cases hx : t.reverse.dropWhile pySpace
      · exact absurd hx h
      · rfl
    rw [h2]
    simp [dropEnd]

theorem collapseWsGo_of_tidyRun : ∀ {r : Str}, tidyRun r = true →
    collapseWsGo false r = r := by
  intro r
  induction r with
  | nil => intro _; rfl
  | cons c t ih =>
    intro h
    by_cases hc : pySpace c = true
    · rw [tidyRun, if_pos hc] at h
      simp only [Bool.and_eq_true, decide_eq_true_eq] at h
      obtain ⟨⟨hc', hh⟩, ht⟩ := h
      cases t with
      | nil => exact absurd hh (by simp [headNonWs])
      | cons d t' =>
        have hd : pySpace d = false := by
          rw [headNonWs] at hh
          simpa using hh
        have hIH := ih ht
        have h1 : collapseWsGo false (d :: t') = d :: collapseWsGo false t' := by
          rw [collapseWsGo]
          simp [hd]
        have h2 : collapseWsGo false t' = t' := by
          rw [h1] at hIH
          injection hIH
        subst hc'
        rw [collapseWsGo, if_pos hc, collapseWsGo]
        simp [hd, h2]
    · rw [tidyRun, if_neg hc] at h
      have h1 : collapseWsGo false (c :: t) = c :: collapseWsGo false t := by
        rw [collapseWsGo]
        simp [hc]
      rw [h1, ih h]

theorem collapseWs_of_tidyRun {r : Str} (h : tidyRun r = true) :
    collapseWs r = r := collapseWsGo_of_tidyRun h

theorem dropEnd_of_tidyRun : ∀ {r : Str}, tidyRun r = true → dropEnd r = r := by
  intro r
  induction r with
  | nil => intro _; rfl
  | cons c t ih =>
    intro h
    rw [dropEnd_cons]
    by_cases h0 : dropEnd t = []
    · rw [if_pos h0]
      have ht : tidyRun t = true := tidyRun_tail h
      have h2 : t = [] := by rw [← ih ht]; exact h0
      subst h2
      have hc : pySpace c = false := by
        by_contra hx
        have hx' : pySpace c = true := by
          cases hcb : pySpace c
          · exact absurd hcb hx
          · rfl
        rw [tidyRun, if_pos hx'] at h
        simp [headNonWs] at h
      simp [hc]
    · rw [if_neg h0, ih (tidyRun_tail h)]

theorem pyStrip_of_tidy {r : Str} (h : tidy r = true) : pyStrip r = r := by
  rw [tidy, Bool.and_eq_true] at h
  obtain ⟨h1, h2⟩ := h
  rw [pyStrip_eq_dropEnd]
  have hd : r.dropWhile pySpace = r := by
    cases r with
    | nil => rfl
    | cons c t =>
      rw [noLeadWs] at h1
      have hc : pySpace c = false := by simpa using h1
      simp [List.dropWhile_cons, hc]
  rw [hd]
  exact dropEnd_of_tidyRun h2

/-- All whitespace in the string is a single `' '` followed by a
non-whitespace character or the end of the string. -/
def spaced : Str → Bool
  | [] => true
  | c :: rest =>
    (if pySpace c then (c = ' ') && noLeadWs rest else true) && spaced rest

theorem spaced_tail {c : Char} {t : Str} (h : spaced (c :: t) = true) :
    spaced t = true := by
  rw [spaced, Bool.and_eq_true] at h
  exact h.2

theorem spaced_collapseWsGo (s : Str) :
    ∀ pending, spaced (collapseWsGo pending s) = true := by
  induction s with
  | nil =>
    intro pending
    cases pending <;> rfl
  | cons c t ih =>
    intro pending
    cases hc : pySpace c
    · rw [collapseWsGo]
      simp only [hc]
      cases pending
      · simpa [spaced, hc] using ih false
      · simpa [spaced, hc, noLeadWs] using ih false
    · rw [collapseWsGo]
      simp only [hc]
      exact ih true

theorem spaced_dropWhile : ∀ {s : Str}, spaced s = true →
    spaced (s.dropWhile pySpace) = true := by
  intro s
  induction s with
  | nil => intro _; exact rfl
  | cons c t ih =>
    intro h
    rw [List.dropWhile_cons]
    by_cases hc : pySpace c = true
    · rw [if_pos hc]
      exact ih (spaced_tail h)
    · rwa [if_neg hc]

theorem noLeadWs_dropWhile (s : Str) :
    noLeadWs (s.dropWhile pySpace) = true := by
  induction s with
  | nil => rfl
  | cons c t ih =>
    rw [List.dropWhile_cons]
    by_cases hc : pySpace c = true
    · rw [if_pos hc]
      exact ih
    · rw [if_neg hc, noLeadWs]
      cases hcb : pySpace c
      · rfl
      · exact absurd hcb hc

theorem noLeadWs_dropEnd {v : Str} (h : noLeadWs v = true) :
    noLeadWs (dropEnd v) = true := by
  cases v with
  | nil => rfl
  | cons c t =>
    rw [dropEnd_cons]
    by_cases h0 : dropEnd t = []
    · rw [if_pos h0]
      rw [noLeadWs] at h
      have hc : pySpace c = false := by simpa using h
      simp [hc, noLeadWs]
    · rw [if_neg h0, noLeadWs]
      rwa [noLeadWs] at h

theorem tidyRun_dropEnd : ∀ {v : Str}, spaced v = true →
    tidyRun (dropEnd v) = true := by
  intro v
  induction v with
  | nil => intro _; rfl
  | cons c t ih =>
    intro h
    have ihh := ih (spaced_tail h)
    rw [dropEnd_cons]
    by_cases h0 : dropEnd t = []
    · rw [if_pos h0]
      cases hc : pySpace c <;> simp [hc, tidyRun]
    · rw [if_neg h0]
      cases hc : pySpace c
      · rw [tidyRun]
        simp only [hc]
        simpa using ihh
      · rw [spaced, if_pos hc] at h
        simp only [Bool.and_eq_true, decide_eq_true_eq] at h
        obtain ⟨⟨hc', hn⟩, _⟩ := h
        cases t with
        | nil => exact absurd (by rfl : dropEnd ([] : Str) = []) h0
        | cons d t' =>
          have hd : pySpace d = false := by
            rw [noLeadWs] at hn
            simpa using hn
          have hh : headNonWs (dropEnd (d :: t')) = true := by
            rw [dropEnd_cons]
            by_cases h0' : dropEnd t' = []
            · simp [h0', hd, headNonWs]
            · simp [h0', headNonWs, hd]
          rw [tidyRun]
          simp [hc, hc', hh, ihh]

theorem tidy_pyStrip_collapseWs (s : Str) :
    tidy (pyStrip (collapseWs s)) = true := by
  rw [pyStrip_eq_dropEnd, tidy, Bool.and_eq_true]
  refine ⟨noLeadWs_dropEnd (noLeadWs_dropWhile _), ?_⟩
  exact tidyRun_dropEnd (spaced_dropWhile (spaced_collapseWsGo s false))

theorem pyStrip_collapseWs_idem (s : Str) :
    pyStrip (collapseWs (pyStrip (collapseWs s))) = pyStrip (collapseWs s) := by
  have ht := tidy_pyStrip_collapseWs s
  have htr : tidyRun (pyStrip (collapseWs s)) = true := by
    rw [tidy, Bool.and_eq_true] at ht
    exact ht.2
  rw [collapseWs_of_tidyRun htr, pyStrip_of_tidy ht]

theorem mem_of_mem_pyStrip {c : Char} {s : Str} (h : c ∈ pyStrip s) :
    c ∈ s := by
  rw [pyStrip, List.mem_reverse] at h
  have h1 := (List.dropWhile_sublist (l := (s.dropWhile pySpace).reverse)
    (p := pySpace)).subset h
  rw [List.mem_reverse] at h1
  exact (List.dropWhile_sublist (l := s) (p := pySpace)).subset h1

theorem mem_collapseWsGo {c : Char} :
    ∀ {s : Str} {pending : Bool}, c ∈ collapseWsGo pending s →
      c = ' ' ∨ c ∈ s := by
  intro s
  induction s with
  | nil =>
    intro pending h
    cases pending
    · exact absurd h (List.not_mem_nil c)
    · left
      simpa [collapseWsGo] using h
  | cons d t ih =>
    intro pending h
    rw [collapseWsGo] at h
    by_cases hd : pySpace d = true
    · rw [if_pos hd] at h
      rcases ih h with h1 | h1
      · exact Or.inl h1
      · exact Or.inr (List.mem_cons_of_mem _ h1)
    · rw [if_neg hd] at h
      rw [List.mem_append] at h
      rcases h with h1 | h1
      · left
        cases hp : pending
        · rw [hp] at h1
          exact absurd h1 (List.not_mem_nil c)
        · rw [hp] at h1
          simpa using h1
      · rcases List.mem_cons.mp h1 with h2 | h2
        · exact Or.inr (h2 ▸ List.mem_cons_self d t)
        · rcases ih h2 with h3 | h3
          · exact Or.inl h3
          · exact Or.inr (List.mem_cons_of_mem _ h3)

theorem mem_collapseWs {c : Char} {s : Str} (h : c ∈ collapseWs s) :
    c = ' ' ∨ c ∈ s := mem_collapseWsGo h

theorem mapSelf {α : Type} {f : α → α} :
    ∀ {l : List α}, (∀ c ∈ l, f c = c) → l.map f = l := by
  intro l
  induction l with
  | nil => intro _; rfl
  | cons a t ih =>
    intro h
    rw [List.map_cons, h a (List.mem_cons_self a t),
      ih (fun c hc => h c (List.mem_cons_of_mem _ hc))]

theorem applyOpts_char_facts (opts : PreprocessOptions) (x : Str) :
    ∀ c ∈ applyPreprocessingOptions opts x,
      (opts.ignore_case = true → Char.toLower c = c) ∧
      (opts.ignore_punctuation = true → isPunct c = false) := by
  intro c hc
  simp only [applyPreprocessingOptions] at hc
  have hc1 := mem_of_mem_pyStrip hc
  rcases mem_collapseWs hc1 with hsp | hc2
  · subst hsp
    exact ⟨fun _ => by decide, fun _ => by decide⟩
  · constructor
    · intro hic
      by_cases hip : opts.ignore_punctuation = true
      · rw [if_pos hip] at hc2
        have hc3 := List.mem_of_mem_filter hc2
        rw [if_pos hic] at hc3
        obtain ⟨d, _, rfl⟩ := List.mem_map.mp hc3
        exact toLower_idem d
      · rw [if_neg hip, if_pos hic] at hc2
        obtain ⟨d, _, rfl⟩ := List.mem_map.mp hc2
        exact toLower_idem d
    · intro hip
      rw [if_pos hip] at hc2
      have h3 := List.of_mem_filter hc2
      simpa using h3

theorem tidy_applyPreprocessingOptions (opts : PreprocessOptions) (x : Str) :
    tidy (applyPreprocessingOptions opts x) = true :=
  tidy_pyStrip_collapseWs _

theorem applyPreprocessingOptions_idem (opts : PreprocessOptions) (x : Str) :
    applyPreprocessingOptions opts (applyPreprocessingOptions opts x) =
      applyPreprocessingOptions opts x := by
  have hchar := applyOpts_char_facts opts x
  have ht := tidy_applyPreprocessingOptions opts x
  show pyStrip (collapseWs (if opts.ignore_punctuation then
      (if opts.ignore_case then
        (applyPreprocessingOptions opts x).map Char.toLower
      else applyPreprocessingOptions opts x).filter (fun c => !isPunct c)
    else (if opts.ignore_case then
        (applyPreprocessingOptions opts x).map Char.toLower
      else applyPreprocessingOptions opts x))) =
    applyPreprocessingOptions opts x
  have h1 : (if opts.ignore_case then
      (applyPreprocessingOptions opts x).map Char.toLower
    else applyPreprocessingOptions opts x) = applyPreprocessingOptions opts x := by
    by_cases hic : opts.ignore_case = true
    · rw [if_pos hic]
      exact mapSelf (fun c hc => (hchar c hc).1 hic)
    · rw [if_neg hic]
  rw [h1]
  have h2 : (if opts.ignore_punctuation then
      (applyPreprocessingOptions opts x).filter (fun c => !isPunct c)
    else applyPreprocessingOptions opts x) = applyPreprocessingOptions opts x := by
    by_cases hip : opts.ignore_punctuation = true
    · rw [if_pos hip]
      refine List.filter_eq_self.mpr (fun c hc => ?_)
      rw [Bool.not_eq_eq_eq_not]
      simpa using (hchar c hc).2 hip
    · rw [if_neg hip]
  rw [h2]
  have htr : tidyRun (applyPreprocessingOptions opts x) = true := by
    rw [tidy, Bool.and_eq_true] at ht
    exact ht.2
  rw [collapseWs_of_tidyRun htr, pyStrip_of_tidy ht]

theorem pySplitlinesGo_cons_ne_cr {acc : Str} {c : Char} {rest : Str}
    (hc : c ≠ '\r') :
    pySplitlinesGo acc (c :: rest) =
      if isLineTerm c then acc.reverse :: pySplitlinesGo [] rest
      else pySplitlinesGo (c :: acc) rest := by
  rw [pySplitlinesGo.eq_def]
  split
  · simp_all
  · rename_i rest2 heq
    rw [List.cons.injEq] at heq
    exact absurd heq.1 hc
  · rename_i c2 rest2 h1 heq
    rw [List.cons.injEq] at heq
    rw [heq.1, heq.2]

theorem ne_cr_of_no_term {c : Char} (h : isLineTerm c = false) : c ≠ '\r' := by
  intro hc
  rw [hc] at h
  exact absurd h (by decide)

theorem pySplitlinesGo_no_term : ∀ {s : Str}, (∀ c ∈ s, c ≠ '\r') →
    ∀ {acc : Str}, (∀ c ∈ acc, isLineTerm c = false) →
    ∀ r ∈ pySplitlinesGo acc s, ∀ c ∈ r, isLineTerm c = false := by
  intro s
  induction s with
  | nil =>
    intro _ acc hacc r hr c hc
    have h0 : pySplitlinesGo acc [] =
        if acc = [] then [] else [acc.reverse] := rfl
    rw [h0] at hr
    by_cases ha : acc = []
    · rw [if_pos ha] at hr
      exact absurd hr (List.not_mem_nil r)
    · rw [if_neg ha] at hr
      rcases List.mem_cons.mp hr with h1 | h1
      · subst h1
        exact hacc c (List.mem_reverse.mp hc)
      · exact absurd h1 (List.not_mem_nil r)
  | cons c rest ih =>
    intro hx acc hacc r hr d hd
    have hc : c ≠ '\r' := hx c (List.mem_cons_self c rest)
    have hx' : ∀ e ∈ rest, e ≠ '\r' := fun e he => hx e (List.mem_cons_of_mem _ he)
    rw [pySplitlinesGo_cons_ne_cr hc] at hr
    by_cases hterm : isLineTerm c = true
    · rw [if_pos hterm] at hr
      rcases List.mem_cons.mp hr with h1 | h1
      · subst h1
        exact hacc d (List.mem_reverse.mp hd)
      · exact ih hx' (fun e he => absurd he (List.not_mem_nil e)) r h1 d hd
    · rw [if_neg hterm] at hr
      have hacc' : ∀ e ∈ c :: acc, isLineTerm e = false := by
        intro e he
        rcases List.mem_cons.mp he with h2 | h2
        · subst h2
          cases hb : isLineTerm e
          · rfl
          · exact absurd hb hterm
        · exact hacc e h2
      exact ih hx' hacc' r hr d hd

theorem pySplitlinesGo_append_line : ∀ {w : Str},
    (∀ c ∈ w, isLineTerm c = false) → ∀ (acc rest : Str),
    pySplitlinesGo acc (w ++ rest) = pySplitlinesGo (w.reverse ++ acc) rest := by
  intro w
  induction w with
  | nil => intro _ acc rest; rfl
  | cons c w' ih =>
    intro hw acc rest
    have hterm : isLineTerm c = false := hw c (List.mem_cons_self c w')
    have hc : c ≠ '\r' := ne_cr_of_no_term hterm
    rw [List.cons_append, pySplitlinesGo_cons_ne_cr hc, if_neg (by rw [hterm]; exact Bool.false_ne_true),
      ih (fun e he => hw e (List.mem_cons_of_mem _ he)) (c :: acc) rest]
    congr 1
    simp

theorem pySplitlines_joinNl : ∀ {L : List Str},
    (∀ r ∈ L, r ≠ [] ∧ ∀ c ∈ r, isLineTerm c = false) →
    pySplitlines (joinNl L) = L := by
  intro L
  induction L with
  | nil => intro _; rfl
  | cons r L' ih =>
    intro hL
    obtain ⟨hr0, hr1⟩ := hL r (List.mem_cons_self r L')
    have hL' : ∀ r2 ∈ L', r2 ≠ [] ∧ ∀ c ∈ r2, isLineTerm c = false :=
      fun r2 h2 => hL r2 (List.mem_cons_of_mem _ h2)
    cases L' with
    | nil =>
      show pySplitlinesGo [] (joinSep ['\n'] [r]) = [r]
      rw [joinSep_single]
      have h0 := pySplitlinesGo_append_line hr1 [] ([] : Str)
      simp only [List.append_nil] at h0
      rw [h0]
      have h1 : pySplitlinesGo (r.reverse) [] =
          if r.reverse = [] then [] else [r.reverse.reverse] := rfl
      rw [h1, if_neg (by simpa using hr0)]
      simp
    | cons r2 L'' =>
      have hjc : joinNl (r :: r2 :: L'') =
          r ++ ('\n' :: joinNl (r2 :: L'')) := by
        rw [joinNl, joinSep_cons_cons]
        simp [joinNl]
      rw [pySplitlines, hjc, pySplitlinesGo_append_line hr1 [] _,
        pySplitlinesGo_cons_ne_cr (by decide), if_pos (by decide)]
      simp only [List.append_nil, List.reverse_reverse]
      rw [show pySplitlinesGo [] (joinNl (r2 :: L'')) =
        pySplitlines (joinNl (r2 :: L'')) from rfl, ih hL']

theorem contains_false_of_not_mem {l : List Char} {a : Char} (h : a ∉ l) :
    l.contains a = false := by
  cases hb : l.contains a
  · rfl
  · exact absurd (List.mem_of_elem_eq_true hb) h

/-- Is there a hyphenation break (a `'-'` whose following whitespace run
contains a `'\n'`, i.e. a match of `r'-\s*\n'`) anywhere in the string? -/
def hasHB : Str → Bool
  | [] => false
  | c :: t => ((c = '-') && (t.takeWhile pySpace).contains '\n') || hasHB t

theorem deHyphScan_false_of_not_hasHB : ∀ {s : Str}, hasHB s = false →
    deHyphScan false s = s := by
  intro s
  induction s with
  | nil => intro _; rfl
  | cons c t ih =>
    intro h
    rw [hasHB, Bool.or_eq_false_iff] at h
    obtain ⟨h1, h2⟩ := h
    rw [deHyphScan, if_neg (by simp), if_neg (by rw [h1]; exact Bool.false_ne_true),
      ih h2]

theorem pySpace_ne_hyphen {c : Char} (h : pySpace c = true) : c ≠ '-' := by
  intro hc
  rw [hc] at h
  exact absurd h (by decide)

theorem deHyphScan_true_head : ∀ {u : Str} {c : Char},
    (deHyphScan true u).head? = some c → pySpace c = false := by
  intro u
  induction u with
  | nil => intro c h; exact absurd h (by rw [deHyphScan]; intro h2; cases h2)
  | cons d u' ih =>
    intro c h
    by_cases hd : (true && pySpace d) = true
    · rw [deHyphScan, if_pos hd] at h
      exact ih h
    · rw [deHyphScan, if_neg hd] at h
      by_cases hm : ((d = '-') && (u'.takeWhile pySpace).contains '\n') = true
      · rw [if_pos hm] at h
        exact ih h
      · rw [if_neg hm] at h
        rw [List.head?_cons] at h
        have hc : d = c := by injection h
        subst hc
        simpa using hd

theorem takeWhile_nil_of_head {l : Str} {p : Char → Bool}
    (h : ∀ c, l.head? = some c → p c = false) : l.takeWhile p = [] := by
  cases l with
  | nil => rfl
  | cons c t =>
    rw [List.takeWhile_cons, if_neg]
    rw [h c (by rw [List.head?_cons])]
    exact Bool.false_ne_true


theorem contains_true_of_mem {l : List Char} {a : Char} (h : a ∈ l) :
    l.contains a = true := List.elem_eq_true_of_mem h

theorem contains_nl_false_iff {l : Str} :
    l.contains '\n' = false ↔ '\n' ∉ l := by
  constructor
  · intro h hm
    rw [contains_true_of_mem hm] at h
    cases h
  · exact contains_false_of_not_mem

theorem deHyphScan_false_run : ∀ {t : Str},
    '\n' ∉ t.takeWhile pySpace →
    '\n' ∉ (deHyphScan false t).takeWhile pySpace := by
  intro t
  induction t with
  | nil => intro _ h; exact absurd h (List.not_mem_nil _)
  | cons d t' ih =>
    intro h
    by_cases hd : pySpace d = true
    · rw [List.takeWhile_cons, if_pos hd] at h
      have hdn : d ≠ '\n' := fun he => h (he ▸ List.mem_cons_self d _)
      have h' : '\n' ∉ t'.takeWhile pySpace := fun hm => h (List.mem_cons_of_mem _ hm)
      have hne : d ≠ '-' := pySpace_ne_hyphen hd
      rw [deHyphScan, if_neg (by simp), if_neg (by simp [hne]),
        List.takeWhile_cons, if_pos hd]
      intro hm
      rcases List.mem_cons.mp hm with h1 | h1
      · exact hdn h1.symm
      · exact ih h' h1
    · have hdf : pySpace d = false := by
        cases hb : pySpace d
        · rfl
        · exact absurd hb hd
      rw [deHyphScan, if_neg (by simp)]
      by_cases hm : ((d = '-') && (t'.takeWhile pySpace).contains '\n') = true
      · rw [if_pos hm, takeWhile_nil_of_head (fun c hc => deHyphScan_true_head hc)]
        exact List.not_mem_nil '\n'
      · rw [if_neg hm, List.takeWhile_cons,
          if_neg (by rw [hdf]; exact Bool.false_ne_true)]
        exact List.not_mem_nil '\n'

theorem hasHB_deHyphScan : ∀ {s : Str} {m : Bool},
    hasHB (deHyphScan m s) = false := by
  intro s
  induction s with
  | nil => intro m; cases m <;> rfl
  | cons c t ih =>
    intro m
    by_cases h1 : (m && pySpace c) = true
    · rw [deHyphScan, if_pos h1]
      exact ih
    · rw [deHyphScan, if_neg h1]
      by_cases h2 : ((c = '-') && (t.takeWhile pySpace).contains '\n') = true
      · rw [if_pos h2]
        exact ih
      · rw [if_neg h2, hasHB, Bool.or_eq_false_iff]
        refine ⟨?_, ih⟩
        by_cases hc : c = '-'
        · subst hc
          have h3 : (t.takeWhile pySpace).contains '\n' = false := by
            cases hb : (t.takeWhile pySpace).contains '\n'
            · rfl
            · exact absurd (by rw [hb]; decide) h2
          have h4 := deHyphScan_false_run (contains_nl_false_iff.mp h3)
          rw [contains_false_of_not_mem h4]
          simp
        · simp [hc]

theorem hasHB_deHyph (s : Str) : hasHB (deHyph s) = false := hasHB_deHyphScan

theorem hasHB_of_not_mem_nl : ∀ {s : Str}, '\n' ∉ s → hasHB s = false := by
  intro s
  induction s with
  | nil => intro _; rfl
  | cons c t ih =>
    intro h
    rw [hasHB, Bool.or_eq_false_iff]
    refine ⟨?_, ih (fun hm => h (List.mem_cons_of_mem _ hm))⟩
    have h1 : '\n' ∉ t.takeWhile pySpace := fun hm =>
      h (List.mem_cons_of_mem _ ((List.takeWhile_sublist pySpace).subset hm))
    rw [contains_false_of_not_mem h1]
    simp

theorem hasHB_append_of_right {x y : Str} (h : hasHB y = true) :
    hasHB (x ++ y) = true := by
  induction x with
  | nil => exact h
  | cons c t ih =>
    rw [List.cons_append, hasHB, ih]
    simp

theorem hasHB_hyphen_ws_nl {v z : Str} (hv : ∀ d ∈ v, pySpace d = true) :
    hasHB ('-' :: (v ++ '\n' :: z)) = true := by
  rw [hasHB]
  have h1 : (v ++ '\n' :: z).takeWhile pySpace =
      v ++ ('\n' :: z).takeWhile pySpace := by
    rw [List.takeWhile_append, if_pos]
    rw [List.takeWhile_eq_self_iff.mpr hv]
  have h2 : '\n' ∈ (v ++ '\n' :: z).takeWhile pySpace := by
    rw [h1, List.takeWhile_cons, if_pos (by decide)]
    exact List.mem_append_right v (List.mem_cons_self _ _)
  rw [contains_true_of_mem h2]
  simp

/-- The raw text uses only `'\n'` as a line terminator (no `'\r'`, `'\v'`,
`'\f'`, `'\x1c'`, `'\x1d'`, `'\x1e'`). -/
def noExotic (s : Str) : Prop := ∀ c ∈ s, isLineTerm c = true → c = '\n'

theorem ne_cr_of_noExotic {s : Str} {c : Char} (hs : noExotic s) (hc : c ∈ s) :
    c ≠ '\r' := by
  intro h
  subst h
  have h2 := hs _ hc (by decide)
  exact absurd h2 (by decide)

theorem noExotic_tail {c : Char} {s : Str} (h : noExotic (c :: s)) :
    noExotic s := fun d hd => h d (List.mem_cons_of_mem _ hd)

theorem pySplitlinesGo_reconstruct : ∀ {s : Str}, noExotic s → ∀ (acc : Str),
    acc.reverse ++ s = joinNl (pySplitlinesGo acc s) ∨
    (acc.reverse ++ s = joinNl (pySplitlinesGo acc s) ++ ['\n'] ∧
      pySplitlinesGo acc s ≠ []) := by
  intro s
  induction s with
  | nil =>
    intro _ acc
    have h0 : pySplitlinesGo acc [] =
        if acc = [] then [] else [acc.reverse] := rfl
    by_cases ha : acc = []
    · left
      rw [h0, if_pos ha, ha]
      rfl
    · left
      rw [h0, if_neg ha, joinNl, joinSep_single]
      simp
  | cons c rest ih =>
    intro hs acc
    have hc : c ≠ '\r' := ne_cr_of_noExotic hs (List.mem_cons_self c rest)
    rw [pySplitlinesGo_cons_ne_cr hc]
    by_cases ht : isLineTerm c = true
    · have hcn : c = '\n' := hs c (List.mem_cons_self c rest) ht
      subst hcn
      rw [if_pos ht]
      by_cases hL : pySplitlinesGo [] rest = []
      · rcases ih (noExotic_tail hs) [] with h1 | ⟨h1, h2⟩
        · rw [hL] at h1
          simp only [List.reverse_nil, List.nil_append] at h1
          right
          rw [hL]
          constructor
          · rw [joinNl, joinSep_single]
            have h3 : rest = [] := by simpa [joinNl] using h1
            rw [h3]
          · simp
        · exact absurd hL h2
      · rcases ih (noExotic_tail hs) [] with h1 | ⟨h1, h2⟩
        · left
          simp only [List.reverse_nil, List.nil_append] at h1
          cases hLs : pySplitlinesGo [] rest with
          | nil => exact absurd hLs hL
          | cons x L'' =>
            rw [hLs] at h1
            rw [joinNl, joinSep_cons_cons]
            rw [joinNl] at h1
            rw [← h1]
            simp
        · right
          simp only [List.reverse_nil, List.nil_append] at h1
          cases hLs : pySplitlinesGo [] rest with
          | nil => exact absurd hLs hL
          | cons x L'' =>
            rw [hLs] at h1
            refine ⟨?_, by simp⟩
            rw [joinNl] at h1
            rw [joinNl, joinSep_cons_cons, h1]
            simp
    · rw [if_neg ht]
      rcases ih (noExotic_tail hs) (c :: acc) with h1 | ⟨h1, h2⟩
      · left
        rw [List.reverse_cons, List.append_assoc] at h1
        simpa using h1
      · right
        rw [List.reverse_cons, List.append_assoc] at h1
        refine ⟨?_, h2⟩
        simpa using h1

theorem pySplitlines_reconstruct {s : Str} (hs : noExotic s) :
    s = joinNl (pySplitlines s) ∨
      s = joinNl (pySplitlines s) ++ ['\n'] := by
  rcases pySplitlinesGo_reconstruct hs [] with h1 | ⟨h1, _⟩
  · left
    simpa using h1
  · right
    simpa using h1

/-- The last non-whitespace character of a string, if any. -/
def lastNonWsChar (y : Str) : Option Char := (y.reverse.dropWhile pySpace).head?

theorem lastNonWsChar_decomp {y : Str} {c : Char}
    (h : lastNonWsChar y = some c) :
    ∃ u v, y = u ++ c :: v ∧ ∀ d ∈ v, pySpace d = true := by
  rw [lastNonWsChar] at h
  cases hd : y.reverse.dropWhile pySpace with
  | nil =>
    rw [hd] at h
    cases h
  | cons c' w =>
    rw [hd, List.head?_cons] at h
    have hc : c' = c := by injection h
    rw [hc] at hd
    have hsplit : y.reverse = y.reverse.takeWhile pySpace ++ (c :: w) := by
      rw [← hd, List.takeWhile_append_dropWhile]
    obtain ⟨T, hT⟩ : ∃ T, y.reverse.takeWhile pySpace = T := ⟨_, rfl⟩
    rw [hT] at hsplit
    refine ⟨w.reverse, T.reverse, ?_, ?_⟩
    · have h2 := congrArg List.reverse hsplit
      rw [List.reverse_reverse] at h2
      rw [h2, List.reverse_append, List.reverse_cons]
      simp
    · intro d hdv
      rw [List.mem_reverse, ← hT] at hdv
      exact List.mem_takeWhile_imp hdv

theorem filter_nonWs_collapseWsGo : ∀ {s : Str} (pending : Bool),
    (collapseWsGo pending s).filter (fun c => !pySpace c) =
      s.filter (fun c => !pySpace c) := by
  intro s
  induction s with
  | nil =>
    intro pending
    cases pending <;> simp [collapseWsGo, List.filter, pySpace]
  | cons c rest ih =>
    intro pending
    rw [collapseWsGo]
    by_cases hc : pySpace c = true
    · rw [if_pos hc, ih, List.filter_cons, if_neg (by rw [hc]; simp)]
    · have hcf : pySpace c = false := by
        cases hb : pySpace c
        · rfl
        · exact absurd hb hc
      rw [if_neg hc, List.filter_append]
      have h1 : (if pending then [' '] else ([] : Str)).filter
          (fun c => !pySpace c) = [] := by
        cases pending <;> simp [List.filter, pySpace]
      rw [h1, List.nil_append]
      simp [List.filter_cons, hcf, ih false]

theorem filter_nonWs_dropWhile (s : Str) :
    (s.dropWhile pySpace).filter (fun c => !pySpace c) =
      s.filter (fun c => !pySpace c) := by
  conv_rhs => rw [← List.takeWhile_append_dropWhile pySpace s]
  rw [List.filter_append]
  have h1 : (s.takeWhile pySpace).filter (fun c => !pySpace c) = [] := by
    rw [List.filter_eq_nil_iff]
    intro a ha
    rw [List.mem_takeWhile_imp ha]
    simp
  rw [h1, List.nil_append]

theorem filter_nonWs_pyStrip (s : Str) :
    (pyStrip s).filter (fun c => !pySpace c) =
      s.filter (fun c => !pySpace c) := by
  rw [pyStrip_eq_dropEnd, dropEnd, List.filter_reverse,
    filter_nonWs_dropWhile, List.filter_reverse, List.reverse_reverse,
    filter_nonWs_dropWhile]

theorem getLast_filter_of_nonWs {l : Str} {c : Char}
    (h : l.getLast? = some c) (hc : pySpace c = false) :
    (l.filter (fun c => !pySpace c)).getLast? = some c := by
  obtain ⟨ys, rfl⟩ := List.getLast?_eq_some_iff.mp h
  rw [List.filter_append, List.filter_cons, if_pos (by rw [hc]; rfl),
    List.filter_nil, List.getLast?_concat]

theorem head_dropWhile_eq_head_filter : ∀ (w : Str),
    (w.dropWhile pySpace).head? = (w.filter (fun c => !pySpace c)).head? := by
  intro w
  induction w with
  | nil => rfl
  | cons c t ih =>
    rw [List.dropWhile_cons, List.filter_cons]
    by_cases hc : pySpace c = true
    · rw [if_pos hc, if_neg (by rw [hc]; simp), ih]
    · have hcf : pySpace c = false := by
        cases hb : pySpace c
        · rfl
        · exact absurd hb hc
      rw [if_neg hc, if_pos (by rw [hcf]; rfl)]
      rfl

theorem lastNonWsChar_eq_getLast_filter (y : Str) :
    lastNonWsChar y = (y.filter (fun c => !pySpace c)).getLast? := by
  rw [lastNonWsChar, head_dropWhile_eq_head_filter, List.filter_reverse,
    List.head?_reverse]

theorem lastNonWsChar_strip_collapse {y : Str} {c : Char}
    (h : (pyStrip (collapseWs y)).getLast? = some c)
    (hc : pySpace c = false) : lastNonWsChar y = some c := by
  have h1 := getLast_filter_of_nonWs h hc
  rw [filter_nonWs_pyStrip] at h1
  rw [show collapseWs y = collapseWsGo false y from rfl,
    filter_nonWs_collapseWsGo false] at h1
  rw [lastNonWsChar_eq_getLast_filter]
  exact h1

theorem dropWhile_map_toLower : ∀ (w : Str),
    (w.map Char.toLower).dropWhile pySpace =
      (w.dropWhile pySpace).map Char.toLower := by
  intro w
  induction w with
  | nil => rfl
  | cons c t ih =>
    rw [List.map_cons, List.dropWhile_cons, List.dropWhile_cons,
      pySpace_toLower]
    by_cases hc : pySpace c = true
    · rw [if_pos hc, if_pos hc, ih]
    · rw [if_neg hc, if_neg hc, List.map_cons]

theorem lastNonWsChar_map_toLower_hyphen {r : Str}
    (h : lastNonWsChar (r.map Char.toLower) = some '-') :
    lastNonWsChar r = some '-' := by
  rw [lastNonWsChar, ← List.map_reverse, dropWhile_map_toLower,
    List.head?_map] at h
  rw [lastNonWsChar]
  cases hd : (r.reverse.dropWhile pySpace).head? with
  | none =>
    rw [hd] at h
    cases h
  | some d =>
    rw [hd] at h
    have h2 : Char.toLower d = '-' := by
      rw [Option.map_some'] at h
      injection h
    rw [toLower_eq_hyphen h2]

theorem mem_of_getLast_some {l : List Char} {c : Char}
    (h : l.getLast? = some c) : c ∈ l := by
  obtain ⟨ys, rfl⟩ := List.getLast?_eq_some_iff.mp h
  exact List.mem_append_right ys (List.mem_cons_self c [])

theorem getLast_applyOpts_ne_hyphen {opts : PreprocessOptions} {r : Str}
    (hmid : lastNonWsChar r ≠ some '-') :
    (applyPreprocessingOptions opts r).getLast? ≠ some '-' := by
  intro h
  by_cases hip : opts.ignore_punctuation = true
  · have hmem : '-' ∈ applyPreprocessingOptions opts r := mem_of_getLast_some h
    have h2 := (applyOpts_char_facts opts r '-' hmem).2 hip
    exact absurd h2 (by decide)
  · have h1 : applyPreprocessingOptions opts r =
        pyStrip (collapseWs
          (if opts.ignore_case then r.map Char.toLower else r)) := by
      rw [applyPreprocessingOptions]
      simp only [if_neg hip]
    rw [h1] at h
    have h3 := lastNonWsChar_strip_collapse h (by decide)
    by_cases hic : opts.ignore_case = true
    · rw [if_pos hic] at h3
      exact hmid (lastNonWsChar_map_toLower_hyphen h3)
    · rw [if_neg hic] at h3
      exact hmid h3

/-- No raw line other than the last ends with a hyphen as its last
non-whitespace character. -/
def midLinesOk : List Str → Prop
  | [] => True
  | r :: rest => (rest = [] ∨ lastNonWsChar r ≠ some '-') ∧ midLinesOk rest

/-- No processed line other than the last ends with a hyphen. -/
def procMidOk : List Str → Prop
  | [] => True
  | l :: rest => (rest = [] ∨ l.getLast? ≠ some '-') ∧ procMidOk rest

theorem procMidOk_of_midLinesOk (opts : PreprocessOptions) :
    ∀ {raws : List Str}, midLinesOk raws →
    procMidOk ((raws.map (applyPreprocessingOptions opts)).filter (· ≠ [])) := by
  intro raws
  induction raws with
  | nil => intro _; trivial
  | cons r raws' ih =>
    intro h
    obtain ⟨hr, hrest⟩ := h
    rw [List.map_cons, List.filter_cons]
    by_cases hne : (applyPreprocessingOptions opts r ≠ [])
    · rw [if_pos (by simpa using hne)]
      refine ⟨?_, ih hrest⟩
      by_cases hF : ((raws'.map (applyPreprocessingOptions opts)).filter
          (· ≠ [])) = []
      · exact Or.inl hF
      · refine Or.inr ?_
        rcases hr with h1 | h1
        · subst h1
          exact absurd (by rfl) hF
        · exact getLast_applyOpts_ne_hyphen h1
    · rw [if_neg (by simpa using hne)]
      exact ih hrest

theorem mem_takeWhile_append {a : Char} {t y : Str}
    (h : a ∈ t.takeWhile pySpace) : a ∈ (t ++ y).takeWhile pySpace := by
  rw [List.takeWhile_append]
  by_cases hl : (t.takeWhile pySpace).length = t.length
  · rw [if_pos hl]
    exact List.mem_append_left _ ((List.takeWhile_sublist _).subset h)
  · rwa [if_neg hl]

theorem hasHB_append_of_left : ∀ {x : Str} (y : Str), hasHB x = true →
    hasHB (x ++ y) = true := by
  intro x
  induction x with
  | nil =>
    intro y h
    simp [hasHB] at h
  | cons c t ih =>
    intro y h
    rw [hasHB] at h
    simp only [Bool.or_eq_true] at h
    rcases h with h1 | h1
    · simp only [Bool.and_eq_true, decide_eq_true_eq] at h1
      obtain ⟨hc, hcon⟩ := h1
      have hmem := List.mem_of_elem_eq_true hcon
      have h2 : '\n' ∈ (t ++ y).takeWhile pySpace := mem_takeWhile_append hmem
      rw [List.cons_append, hasHB, hc]
      rw [contains_true_of_mem h2]
      simp
    · rw [List.cons_append, hasHB, ih y h1]
      simp

theorem midLinesOk_of_not_hasHB_join : ∀ {L : List Str},
    (∀ r ∈ L, '\n' ∉ r) → hasHB (joinNl L) = false → midLinesOk L := by
  intro L
  induction L with
  | nil => intro _ _; trivial
  | cons r rest ih =>
    intro hnl hh
    cases rest with
    | nil => exact ⟨Or.inl rfl, trivial⟩
    | cons x rest' =>
      have hjoin : joinNl (r :: x :: rest') =
          r ++ ('\n' :: joinNl (x :: rest')) := by
        rw [joinNl, joinSep_cons_cons]
        simp [joinNl]
      constructor
      · refine Or.inr ?_
        intro hlast
        obtain ⟨u, v, hdecomp, hv⟩ := lastNonWsChar_decomp hlast
        have h1 : hasHB (joinNl (r :: x :: rest')) = true := by
          rw [hjoin, hdecomp, List.append_assoc, List.cons_append]
          exact hasHB_append_of_right (hasHB_hyphen_ws_nl hv)
        rw [h1] at hh
        cases hh
      · refine ih (fun e he => hnl e (List.mem_cons_of_mem _ he)) ?_
        have h2 : hasHB ('\n' :: joinNl (x :: rest')) = false := by
          cases hb : hasHB ('\n' :: joinNl (x :: rest'))
          · rfl
          · have h3 := hasHB_append_of_right (x := r) hb
            rw [← hjoin] at h3
            rw [h3] at hh
            cases hh
        rw [hasHB, Bool.or_eq_false_iff] at h2
        exact h2.2

theorem midLinesOk_pySplitlines {s : Str} (hs : noExotic s)
    (hh : hasHB s = false) : midLinesOk (pySplitlines s) := by
  have hterm : ∀ r ∈ pySplitlines s, ∀ c ∈ r, isLineTerm c = false :=
    pySplitlinesGo_no_term (fun c hc => ne_cr_of_noExotic hs hc)
      (fun c hc => absurd hc (List.not_mem_nil c))
  have hnl : ∀ r ∈ pySplitlines s, '\n' ∉ r := by
    intro r hr hm
    exact absurd (hterm r hr '\n' hm) (by decide)
  refine midLinesOk_of_not_hasHB_join hnl ?_
  rcases pySplitlines_reconstruct hs with h1 | h1
  · rwa [← h1]
  · cases hb : hasHB (joinNl (pySplitlines s))
    · rfl
    · have h3 := hasHB_append_of_left ['\n'] hb
      rw [← h1] at h3
      rw [h3] at hh
      cases hh

theorem hasHB_line_append : ∀ {w : Str} (z : Str), '\n' ∉ w →
    tidyRun w = true → w.getLast? ≠ some '-' → hasHB z = false →
    hasHB (w ++ '\n' :: z) = false := by
  intro w
  induction w with
  | nil =>
    intro z _ _ _ hz
    rw [List.nil_append, hasHB, hz]
    simp
  | cons c w' ih =>
    intro z hnl htr hlast hz
    rw [List.cons_append, hasHB, Bool.or_eq_false_iff]
    constructor
    · by_cases hc : c = '-'
      · subst hc
        cases w' with
        | nil => exact absurd rfl hlast
        | cons d w'' =>
          by_cases hd : pySpace d = true
          · have ht2 : tidyRun (d :: w'') = true := tidyRun_tail htr
            rw [tidyRun, if_pos hd] at ht2
            simp only [Bool.and_eq_true, decide_eq_true_eq] at ht2
            obtain ⟨⟨hd', hh⟩, _⟩ := ht2
            cases w'' with
            | nil => simp [headNonWs] at hh
            | cons e w''' =>
              have he : pySpace e = false := by
                rw [headNonWs] at hh
                simpa using hh
              have hrun : ((d :: e :: w''') ++ '\n' :: z).takeWhile pySpace
                  = [d] := by
                rw [List.cons_append, List.takeWhile_cons, if_pos hd,
                  List.cons_append, List.takeWhile_cons,
                  if_neg (by rw [he]; exact Bool.false_ne_true)]
              rw [hrun]
              subst hd'
              decide
          · have hrun : ((d :: w'') ++ '\n' :: z).takeWhile pySpace = [] := by
              rw [List.cons_append, List.takeWhile_cons, if_neg hd]
            rw [hrun]
            decide
      · simp [hc]
    · refine ih z (fun hm => hnl (List.mem_cons_of_mem _ hm))
        (tidyRun_tail htr) ?_ hz
      cases w' with
      | nil => simp
      | cons b w'' =>
        rw [← List.getLast?_cons_cons (a := c)]
        exact hlast

theorem hasHB_joinNl_false : ∀ {L : List Str},
    (∀ w ∈ L, '\n' ∉ w) → (∀ w ∈ L, tidyRun w = true) → procMidOk L →
    hasHB (joinNl L) = false := by
  intro L
  induction L with
  | nil => intro _ _ _; rfl
  | cons w rest ih =>
    intro h1 h2 h3
    obtain ⟨hmid, hrest⟩ := h3
    cases rest with
    | nil =>
      rw [joinNl, joinSep_single]
      exact hasHB_of_not_mem_nl (h1 w (List.mem_cons_self w _))
    | cons x rest' =>
      have hjoin : joinNl (w :: x :: rest') =
          w ++ ('\n' :: joinNl (x :: rest')) := by
        rw [joinNl, joinSep_cons_cons]
        simp [joinNl]
      rw [hjoin]
      refine hasHB_line_append _ (h1 w (List.mem_cons_self w _))
        (h2 w (List.mem_cons_self w _)) ?_
        (ih (fun e he => h1 e (List.mem_cons_of_mem _ he))
          (fun e he => h2 e (List.mem_cons_of_mem _ he)) hrest)
      rcases hmid with hm | hm
      · cases hm
      · exact hm

theorem mem_deHyphScan {c : Char} : ∀ {s : Str} {m : Bool},
    c ∈ deHyphScan m s → c ∈ s := by
  intro s
  induction s with
  | nil =>
    intro m h
    cases m <;> exact absurd h (List.not_mem_nil c)
  | cons d t ih =>
    intro m h
    rw [deHyphScan] at h
    by_cases h1 : (m && pySpace d) = true
    · rw [if_pos h1] at h
      exact List.mem_cons_of_mem _ (ih h)
    · rw [if_neg h1] at h
      by_cases h2 : ((d = '-') && (t.takeWhile pySpace).contains '\n') = true
      · rw [if_pos h2] at h
        exact List.mem_cons_of_mem _ (ih h)
      · rw [if_neg h2] at h
        rcases List.mem_cons.mp h with h3 | h3
        · exact h3 ▸ List.mem_cons_self d t
        · exact List.mem_cons_of_mem _ (ih h3)

theorem noExotic_deHyph {t : Str} (h : noExotic t) : noExotic (deHyph t) :=
  fun c hc => h c (mem_deHyphScan hc)

theorem applyOpts_no_term {opts : PreprocessOptions} {r : Str}
    (hr : ∀ c ∈ r, isLineTerm c = false) :
    ∀ c ∈ applyPreprocessingOptions opts r, isLineTerm c = false := by
  intro c hc
  simp only [applyPreprocessingOptions] at hc
  have hc1 := mem_of_mem_pyStrip hc
  rcases mem_collapseWs hc1 with hsp | hc2
  · subst hsp
    decide
  · have hc3 : c ∈ (if opts.ignore_case then r.map Char.toLower else r) := by
      by_cases hip : opts.ignore_punctuation = true
      · rw [if_pos hip] at hc2
        exact List.mem_of_mem_filter hc2
      · rwa [if_neg hip] at hc2
    by_cases hic : opts.ignore_case = true
    · rw [if_pos hic] at hc3
      obtain ⟨d, hd, rfl⟩ := List.mem_map.mp hc3
      cases hb : isLineTerm (Char.toLower d)
      · rfl
      · have h4 := isLineTerm_toLower hb
        rw [hr d hd] at h4
        exact absurd h4 Bool.false_ne_true
    · rw [if_neg hic] at hc3
      exact hr c hc3

theorem mem_preprocessText {opts : PreprocessOptions} {t w : Str}
    (h : w ∈ preprocessText opts t) :
    ∃ r ∈ pySplitlines (if opts.de_hyphenate then deHyph t else t),
      w = applyPreprocessingOptions opts r ∧ w ≠ [] := by
  simp only [preprocessText] at h
  have h1 := List.mem_of_mem_filter h
  have h2 := List.of_mem_filter h
  obtain ⟨r, hr, rfl⟩ := List.mem_map.mp h1
  exact ⟨r, hr, rfl, by simpa using h2⟩

/-- Counterexample to C7 as stated: with `de_hyphenate` enabled and the raw
text `"ab-\rcd"`, the first normalization yields `["ab-", "cd"]` (the `'\r'`
terminator is not matched by the de-hyphenation regex `r'-\s*\n\s*'`, which
requires a `'\n'`), but re-normalizing the newline-joined output
de-hyphenates `"ab-\ncd"` into `["abcd"]`. -/
theorem preprocess_not_idempotent :
    preprocessText ⟨false, false, true⟩
        (joinNl (preprocessText ⟨false, false, true⟩
          ('a' :: 'b' :: '-' :: '\r' :: 'c' :: 'd' :: []))) ≠
      preprocessText ⟨false, false, true⟩
        ('a' :: 'b' :: '-' :: '\r' :: 'c' :: 'd' :: []) := by
  decide

/-- C7 (amended): normalization (`PDFComparator._preprocess_text`) is
idempotent — re-normalizing the newline-joined output of a first
normalization returns the same line sequence — for every combination of the
three options, provided the raw text uses only `'\n'` as a line terminator
(no `'\r'`, `'\v'`, `'\f'`, `'\x1c'`, `'\x1d'`, `'\x1e'`); the original
claim quantified over every raw string and is refuted by
`preprocess_not_idempotent`. -/
theorem preprocessText_idem (opts : PreprocessOptions) (t : Str)
    (hx : noExotic t) :
    preprocessText opts (joinNl (preprocessText opts t)) =
      preprocessText opts t := by
  have hne : noExotic (if opts.de_hyphenate then deHyph t else t) := by
    by_cases hdh : opts.de_hyphenate = true
    · rw [if_pos hdh]
      exact noExotic_deHyph hx
    · rwa [if_neg hdh]
  have hterm_raw : ∀ r ∈ pySplitlines (if opts.de_hyphenate then deHyph t
      else t), ∀ c ∈ r, isLineTerm c = false :=
    pySplitlinesGo_no_term (fun c hc => ne_cr_of_noExotic hne hc)
      (fun c hc => absurd hc (List.not_mem_nil c))
  have hF2 : ∀ w ∈ preprocessText opts t, ∀ c ∈ w, isLineTerm c = false := by
    intro w hw
    obtain ⟨r, hr, rfl, _⟩ := mem_preprocessText hw
    exact applyOpts_no_term (hterm_raw r hr)
  have hF1 : ∀ w ∈ preprocessText opts t, w ≠ [] := by
    intro w hw
    obtain ⟨r, hr, hwr, hne'⟩ := mem_preprocessText hw
    exact hne'
  have hF3 : ∀ w ∈ preprocessText opts t, tidyRun w = true := by
    intro w hw
    obtain ⟨r, hr, rfl, _⟩ := mem_preprocessText hw
    have h5 := tidy_applyPreprocessingOptions opts r
    rw [tidy, Bool.and_eq_true] at h5
    exact h5.2
  have hF4 : ∀ w ∈ preprocessText opts t,
      applyPreprocessingOptions opts w = w := by
    intro w hw
    obtain ⟨r, hr, rfl, _⟩ := mem_preprocessText hw
    exact applyPreprocessingOptions_idem opts r
  have hnl : ∀ w ∈ preprocessText opts t, '\n' ∉ w := fun w hw hm =>
    absurd (hF2 w hw '\n' hm) (by decide)
  have hstep1 : (if opts.de_hyphenate then
      deHyph (joinNl (preprocessText opts t))
    else joinNl (preprocessText opts t)) = joinNl (preprocessText opts t) := by
    by_cases hdh : opts.de_hyphenate = true
    · rw [if_pos hdh]
      have hmid : midLinesOk (pySplitlines (deHyph t)) :=
        midLinesOk_pySplitlines (noExotic_deHyph hx) (hasHB_deHyph t)
      have hPt : preprocessText opts t =
          ((pySplitlines (deHyph t)).map
            (applyPreprocessingOptions opts)).filter (· ≠ []) := by
        simp only [preprocessText, if_pos hdh]
      have hproc : procMidOk (preprocessText opts t) := by
        rw [hPt]
        exact procMidOk_of_midLinesOk opts hmid
      exact deHyphScan_false_of_not_hasHB
        (hasHB_joinNl_false hnl hF3 hproc)
    · rw [if_neg hdh]
  have hstep2 : pySplitlines (joinNl (preprocessText opts t)) =
      preprocessText opts t :=
    pySplitlines_joinNl (fun r hr => ⟨hF1 r hr, hF2 r hr⟩)
  show ((pySplitlines (if opts.de_hyphenate then
      deHyph (joinNl (preprocessText opts t))
    else joinNl (preprocessText opts t))).map
      (applyPreprocessingOptions opts)).filter (· ≠ []) =
    preprocessText opts t
  rw [hstep1, hstep2, mapSelf hF4, List.filter_eq_self.mpr
    (fun w hw => by simpa using hF1 w hw)]

/-- Witness for `preprocessText_idem` on `"ab-\ncd"` with all three options
enabled: the hypothesis holds and both normalization passes give
`["abcd"]`. -/
theorem preprocessText_idem_witness :
    noExotic ('a' :: 'b' :: '-' :: '\n' :: 'c' :: 'd' :: []) ∧
    preprocessText ⟨true, true, true⟩
        (joinNl (preprocessText ⟨true, true, true⟩
          ('a' :: 'b' :: '-' :: '\n' :: 'c' :: 'd' :: []))) =
      preprocessText ⟨true, true, true⟩
        ('a' :: 'b' :: '-' :: '\n' :: 'c' :: 'd' :: []) :=
  ⟨by unfold noExotic; decide,
    preprocessText_idem ⟨true, true, true⟩ _ (by unfold noExotic; decide)⟩
